import Mathlib

/-!
Shallow embedding, in Lean 4, of the core of the nested-task-compass
repository (an offline-first task manager), together with theorems settling
the frozen claims about its specification.

The embedding follows the TypeScript source:

* `src/context/TaskHelpers.ts` — the task forest (TaskTree) operations
  `updateTaskInHierarchy`, `deleteTaskFromHierarchy`, and the identity
  resolver `isValidUUID` / `ensureUUID`;
* `src/services/timeTrackingService.ts` — the remote-store (per-row CRUD)
  time-tracking operations and the derived `time_tracked` bookkeeping;
* `src/context/providers/SupabaseTaskProvider.tsx` — the provider state
  machine for active time tracking and the pending-operation queue drain
  (`processPendingOperations`);
* `src/utils/cache-utils` (absent from the sources; modelled from the spec)
  — the bounded TTL/LRU `LocalCache`.

Machine dates are embedded as integer millisecond timestamps; JavaScript
`Math.floor((end - start) / 60000)` becomes `Int.fdiv (end - start) 60000`
(floor division), and `Math.max(0, x)` becomes `max 0 x`.
-/

namespace TaskCompass

/-- Task priority enumeration, from `TaskTypes` usage (low / medium / high). -/
inductive Priority where
  | low
  | medium
  | high
deriving DecidableEq, Repr

/-- The scalar (non-recursive) fields of a `Task`, from the `Task` shape used
throughout the source (`TaskTypes`, `SupabaseTaskProvider.loadTasks`).
Dates are integer millisecond timestamps. -/
structure TaskData where
  id : String
  title : String
  description : Option String := none
  priority : Priority := .medium
  dueDate : Option Int := none
  projectId : String := ""
  parentId : Option String := none
  isExpanded : Bool := true
  notes : Option String := none
  estimatedTime : Option Int := none
  timeTracked : Int := 0
  completed : Bool := false
  timeSlot : Option String := none
  isRecurring : Bool := false
deriving DecidableEq, Repr

/-- A `Task` is its scalar data together with its owned list of children
(`children: Task[]` in `TaskTypes`). -/
inductive Task where
  | mk (data : TaskData) (children : List Task)
deriving Repr

/-- The scalar fields of a task. -/
def Task.data : Task → TaskData
  | .mk d _ => d

/-- The owned children list of a task. -/
def Task.children : Task → List Task
  | .mk _ c => c

/-- The identifier of a task. -/
def Task.id (t : Task) : String := t.data.id

@[simp] theorem Task.data_mk (d : TaskData) (c : List Task) :
    (Task.mk d c).data = d := rfl

@[simp] theorem Task.children_mk (d : TaskData) (c : List Task) :
    (Task.mk d c).children = c := rfl

@[simp] theorem Task.id_mk (d : TaskData) (c : List Task) :
    (Task.mk d c).id = d.id := rfl

/-- Decidable equality for tasks, by recursion on the tree. -/
def Task.beq : Task → Task → Bool
  | .mk d c, .mk d2 c2 => decide (d = d2) && beqList c c2
where
  /-- Pointwise `Task.beq` on lists of tasks. -/
  beqList : List Task → List Task → Bool
  | [], [] => true
  | t :: r, t2 :: r2 => Task.beq t t2 && beqList r r2
  | _, _ => false

mutual

theorem Task.beq_eq : ∀ t u : Task, Task.beq t u = true ↔ t = u
  | .mk d c, .mk d2 c2 => by
    simp only [Task.beq, Bool.and_eq_true, decide_eq_true_eq, Task.mk.injEq]
    exact and_congr Iff.rfl (Task.beqList_eq c c2)

theorem Task.beqList_eq : ∀ l l2 : List Task, Task.beq.beqList l l2 = true ↔ l = l2
  | [], [] => by simp [Task.beq.beqList]
  | [], _ :: _ => by simp [Task.beq.beqList]
  | _ :: _, [] => by simp [Task.beq.beqList]
  | t :: r, t2 :: r2 => by
    simp only [Task.beq.beqList, Bool.and_eq_true, List.cons.injEq]
    exact and_congr (Task.beq_eq t t2) (Task.beqList_eq r r2)

end

instance : DecidableEq Task := fun t u =>
  decidable_of_iff (Task.beq t u = true) (Task.beq_eq t u)

/-! ## TaskTree operations, from `src/context/TaskHelpers.ts`

`updateTaskInHierarchy` maps over the forest: a task whose id matches is
replaced by `updateFn task`; every other task is rebuilt with its children
recursively processed.

`deleteTaskFromHierarchy` filters the forest: a task whose id matches is
dropped (its children with it); every surviving task has
`task.children = deleteTaskFromHierarchy(taskId, task.children)` **assigned
in place** before being kept.  We therefore embed two aspects of the same
function: `deleteTaskFromHierarchy`, the returned forest, and
`deleteTaskFromHierarchyPost`, the value of the *input* forest after the
call (reflecting the in-place assignment to surviving tasks' children). -/

/-- `updateTaskInHierarchy` from `TaskHelpers.ts` (the returned forest; the
source builds new objects with spread syntax and assigns to none of the
input's fields). -/
def updateTaskInHierarchy (taskId : String) (updateFn : Task → Task) :
    List Task → List Task
  | [] => []
  | .mk d c :: rest =>
    (if d.id = taskId then updateFn (.mk d c)
     else .mk d (updateTaskInHierarchy taskId updateFn c)) ::
      updateTaskInHierarchy taskId updateFn rest

/-- `deleteTaskFromHierarchy` from `TaskHelpers.ts`: the returned forest.  A
task whose id matches is dropped together with its subtree; a surviving
task keeps its data and gets the recursively filtered children. -/
def deleteTaskFromHierarchy (taskId : String) : List Task → List Task
  | [] => []
  | .mk d c :: rest =>
    if d.id = taskId then deleteTaskFromHierarchy taskId rest
    else .mk d (deleteTaskFromHierarchy taskId c) :: deleteTaskFromHierarchy taskId rest

/-- The value of the **input** forest after `deleteTaskFromHierarchy` runs:
the list object still holds every original top-level task, but each
surviving task (`task.id !== taskId`) has had
`task.children = deleteTaskFromHierarchy(taskId, task.children)` assigned to
it; a matched task is returned `false` from the filter callback before its
children are touched. -/
def deleteTaskFromHierarchyPost (taskId : String) : List Task → List Task
  | [] => []
  | .mk d c :: rest =>
    (if d.id = taskId then Task.mk d c
     else .mk d (deleteTaskFromHierarchy taskId c)) ::
      deleteTaskFromHierarchyPost taskId rest

/-- All identifiers occurring anywhere in a forest, parents before children. -/
def idsOfForest : List Task → List String
  | [] => []
  | .mk d c :: rest => d.id :: (idsOfForest c ++ idsOfForest rest)

/-- Occurrence of a task value anywhere in a forest (at any depth). -/
inductive MemForest (u : Task) : List Task → Prop
  | head (d : TaskData) (c : List Task) (rest : List Task) :
      u = Task.mk d c → MemForest u (Task.mk d c :: rest)
  | child (d : TaskData) (c : List Task) (rest : List Task) :
      MemForest u c → MemForest u (Task.mk d c :: rest)
  | tail (t : Task) (rest : List Task) :
      MemForest u rest → MemForest u (t :: rest)

/-- Identifiers of a deleted forest are identifiers of the original forest. -/
theorem idsOf_delete_subset (taskId : String) :
    ∀ l : List Task, ∀ s, s ∈ idsOfForest (deleteTaskFromHierarchy taskId l) →
      s ∈ idsOfForest l
  | [] => by simp [deleteTaskFromHierarchy]
  | .mk d c :: rest => by
    intro s hs
    by_cases h : d.id = taskId
    · rw [deleteTaskFromHierarchy, if_pos h] at hs
      simp only [idsOfForest, List.mem_cons, List.mem_append]
      exact Or.inr (Or.inr (idsOf_delete_subset taskId rest s hs))
    · rw [deleteTaskFromHierarchy, if_neg h] at hs
      simp only [idsOfForest, List.mem_cons, List.mem_append] at hs ⊢
      rcases hs with hs | hs | hs
      · exact Or.inl hs
      · exact Or.inr (Or.inl (idsOf_delete_subset taskId c s hs))
      · exact Or.inr (Or.inr (idsOf_delete_subset taskId rest s hs))

/-- After `deleteTaskFromHierarchy taskId`, the identifier `taskId` occurs
nowhere in the returned forest: every task carrying it is removed at every
depth. -/
theorem id_not_mem_delete (taskId : String) :
    ∀ l : List Task, taskId ∉ idsOfForest (deleteTaskFromHierarchy taskId l)
  | [] => by simp [deleteTaskFromHierarchy, idsOfForest]
  | .mk d c :: rest => by
    by_cases h : d.id = taskId
    · rw [deleteTaskFromHierarchy, if_pos h]
      exact id_not_mem_delete taskId rest
    · rw [deleteTaskFromHierarchy, if_neg h]
      simp only [idsOfForest, List.mem_cons, List.mem_append]
      push_neg
      exact ⟨fun hc => h hc.symm, id_not_mem_delete taskId c, id_not_mem_delete taskId rest⟩

/-- Every identifier in the subtree of a forest member occurs in the forest's
identifier list. -/
theorem subtree_ids_subset {u : Task} {l : List Task} (h : MemForest u l) :
    ∀ s, s ∈ u.id :: idsOfForest u.children → s ∈ idsOfForest l := by
  induction h with
  | head d c rest he =>
    intro s hs
    subst he
    simp only [Task.id_mk, Task.children_mk, List.mem_cons] at hs
    simp only [idsOfForest, List.mem_cons, List.mem_append]
    rcases hs with hs | hs
    · exact Or.inl hs
    · exact Or.inr (Or.inl hs)
  | child d c rest _ ih =>
    intro s hs
    simp only [idsOfForest, List.mem_cons, List.mem_append]
    exact Or.inr (Or.inl (ih s hs))
  | tail t rest _ ih =>
    intro s hs
    obtain ⟨d, c⟩ := t
    simp only [idsOfForest, List.mem_cons, List.mem_append]
    exact Or.inr (Or.inr (ih s hs))

/-- A forest member's identifier occurs in the forest's identifier list. -/
theorem mem_id_mem_ids {u : Task} {l : List Task} (h : MemForest u l) :
    u.id ∈ idsOfForest l :=
  subtree_ids_subset h u.id (List.mem_cons_self _ _)

/-- Key removal lemma: when the forest's identifiers are duplicate-free and
`t` occurs in the forest, no identifier of `t`'s subtree survives
`deleteTaskFromHierarchy t.id`. -/
theorem subtree_ids_not_mem_delete {t : Task} {l : List Task}
    (hmem : MemForest t l) (hnodup : (idsOfForest l).Nodup) :
    ∀ s, s ∈ t.id :: idsOfForest t.children →
      s ∉ idsOfForest (deleteTaskFromHierarchy t.id l) := by
  induction hmem with
  | head d c rest he =>
    subst he
    simp only [Task.id_mk, Task.children_mk]
    intro s hs hmem2
    rw [deleteTaskFromHierarchy, if_pos rfl] at hmem2
    have hrest : s ∈ idsOfForest rest := idsOf_delete_subset _ rest s hmem2
    simp only [idsOfForest, List.nodup_cons, List.mem_append, List.nodup_append] at hnodup
    rcases List.mem_cons.mp hs with hs | hs
    · subst hs; exact hnodup.1 (Or.inr hrest)
    · exact hnodup.2.2.2 hs hrest
  | child d c rest hc ih =>
    simp only [idsOfForest, List.nodup_cons, List.mem_append, List.nodup_append] at hnodup
    intro s hs hmem2
    have hsc : s ∈ idsOfForest c := subtree_ids_subset hc s hs
    by_cases hd : d.id = t.id
    · rw [deleteTaskFromHierarchy, hd, if_pos rfl] at hmem2
      exact hnodup.2.2.2 hsc (idsOf_delete_subset _ rest s hmem2)
    · rw [deleteTaskFromHierarchy, if_neg hd] at hmem2
      simp only [idsOfForest, List.mem_cons, List.mem_append] at hmem2
      rcases hmem2 with hmem2 | hmem2 | hmem2
      · exact hnodup.1 (Or.inl (hmem2 ▸ hsc))
      · exact ih hnodup.2.1 s hs hmem2
      · exact hnodup.2.2.2 hsc (idsOf_delete_subset _ rest s hmem2)
  | tail u rest hr ih =>
    obtain ⟨d, c⟩ := u
    simp only [idsOfForest, List.nodup_cons, List.mem_append, List.nodup_append] at hnodup
    have htid : t.id ∈ idsOfForest rest := mem_id_mem_ids hr
    have hd : d.id ≠ t.id := fun he => hnodup.1 (Or.inr (he ▸ htid))
    intro s hs hmem2
    have hsr : s ∈ idsOfForest rest := subtree_ids_subset hr s hs
    rw [deleteTaskFromHierarchy, if_neg hd] at hmem2
    simp only [idsOfForest, List.mem_cons, List.mem_append] at hmem2
    rcases hmem2 with hmem2 | hmem2 | hmem2
    · exact hnodup.1 (Or.inr (hmem2 ▸ hsr))
    · exact hnodup.2.2.2 (idsOf_delete_subset _ c s hmem2) hsr
    · exact ih hnodup.2.2.1 s hs hmem2

/-- If an identifier does not occur in a forest, `updateTaskInHierarchy`
returns the forest unchanged. -/
theorem update_noop_of_not_mem (taskId : String) (f : Task → Task) :
    ∀ l : List Task, taskId ∉ idsOfForest l → updateTaskInHierarchy taskId f l = l
  | [] => by intro h; rw [updateTaskInHierarchy]
  | .mk d c :: rest => by
    intro h
    simp only [idsOfForest, List.mem_cons, List.mem_append] at h
    push_neg at h
    rw [updateTaskInHierarchy, if_neg (fun he => h.1 he.symm),
      update_noop_of_not_mem taskId f c h.2.1,
      update_noop_of_not_mem taskId f rest h.2.2]

/-- If an identifier does not occur in a forest, `deleteTaskFromHierarchy`
returns the forest unchanged. -/
theorem delete_noop_of_not_mem (taskId : String) :
    ∀ l : List Task, taskId ∉ idsOfForest l → deleteTaskFromHierarchy taskId l = l
  | [] => by intro h; rw [deleteTaskFromHierarchy]
  | .mk d c :: rest => by
    intro h
    simp only [idsOfForest, List.mem_cons, List.mem_append] at h
    push_neg at h
    rw [deleteTaskFromHierarchy, if_neg (fun he => h.1 he.symm),
      delete_noop_of_not_mem taskId c h.2.1,
      delete_noop_of_not_mem taskId rest h.2.2]

/-- Conversely, deleting an identifier that does occur in the forest changes
the forest. -/
theorem delete_ne_of_mem (taskId : String) (l : List Task)
    (h : taskId ∈ idsOfForest l) : deleteTaskFromHierarchy taskId l ≠ l := by
  intro he
  exact id_not_mem_delete taskId l (he.symm ▸ h)

/-- The post-state of the input forest equals its original value exactly when
no surviving top-level task has the deleted identifier among its
descendants. -/
theorem deletePost_eq_iff (taskId : String) :
    ∀ l : List Task, deleteTaskFromHierarchyPost taskId l = l ↔
      ∀ d c, Task.mk d c ∈ l → d.id ≠ taskId → taskId ∉ idsOfForest c := by
  intro l
  induction l with
  | nil => simp [deleteTaskFromHierarchyPost]
  | cons t rest ih =>
    obtain ⟨d, c⟩ := t
    rw [deleteTaskFromHierarchyPost]
    by_cases h : d.id = taskId
    · rw [if_pos h]
      constructor
      · intro he d2 c2 hm hne
        injection he with he1 he2
        rcases List.mem_cons.mp hm with hm | hm
        · injection hm with hd2 hc2
          exact absurd (show d2.id = taskId by rw [hd2]; exact h) hne
        · exact (ih.mp he2) d2 c2 hm hne
      · intro hall
        rw [List.cons.injEq]
        exact ⟨rfl, ih.mpr fun d2 c2 hm hne =>
          hall d2 c2 (List.mem_cons_of_mem _ hm) hne⟩
    · rw [if_neg h]
      constructor
      · intro he d2 c2 hm hne
        injection he with he1 he2
        injection he1 with hed hec
        rcases List.mem_cons.mp hm with hm | hm
        · injection hm with hd2 hc2
          rw [hc2]
          exact fun hmm => delete_ne_of_mem taskId c hmm hec
        · exact (ih.mp he2) d2 c2 hm hne
      · intro hall
        rw [List.cons.injEq, Task.mk.injEq]
        refine ⟨⟨rfl, ?_⟩, ih.mpr fun d2 c2 hm hne =>
          hall d2 c2 (List.mem_cons_of_mem _ hm) hne⟩
        by_cases hmm : taskId ∈ idsOfForest c
        · exact absurd hmm (hall d c (List.mem_cons_self _ _) h)
        · exact delete_noop_of_not_mem taskId c hmm

/-! ## Claims C3, C4, C5 -/

/-- C3 counterexample: the claim says `deleteTaskFromHierarchy` leaves every
task of the input forest (including each task's children list) unchanged.
It does not: for the forest holding one root task `p` with one child `c`,
deleting `"c"` assigns the filtered list to the root's `children` field in
place, so after the call the input forest holds `p` with no children. -/
theorem claim_C3_counterexample :
    deleteTaskFromHierarchyPost "c"
        [Task.mk { id := "p", title := "parent" }
          [Task.mk { id := "c", title := "child", parentId := some "p" } []]] ≠
      [Task.mk { id := "p", title := "parent" }
        [Task.mk { id := "c", title := "child", parentId := some "p" } []]] := by
  simp [deleteTaskFromHierarchyPost, deleteTaskFromHierarchy]

/-- C3 (amended): `updateTaskInHierarchy` writes to no field of the input
(it rebuilds every node with object spread), but `deleteTaskFromHierarchy`
assigns the recursively filtered list to each surviving top-level task's
`children` field in place; the input forest is left unchanged (as a value)
exactly when the deleted identifier occurs in no surviving top-level task's
descendants. -/
theorem claim_C3_amended (taskId : String) (l : List Task) :
    deleteTaskFromHierarchyPost taskId l = l ↔
      ∀ d c, Task.mk d c ∈ l → d.id ≠ taskId → taskId ∉ idsOfForest c :=
  deletePost_eq_iff taskId l

/-- C4: for every forest with duplicate-free identifiers containing a task
`t` at any depth, `deleteTaskFromHierarchy t.id` removes `t` and every one
of `t`'s descendants; children are discarded with the deleted task. -/
theorem claim_C4 (t : Task) (F : List Task)
    (hmem : MemForest t F) (hnodup : (idsOfForest F).Nodup) :
    ∀ u : Task, (u = t ∨ MemForest u t.children) →
      ¬ MemForest u (deleteTaskFromHierarchy t.id F) := by
  intro u hu hcontra
  have hid : u.id ∈ t.id :: idsOfForest t.children := by
    rcases hu with hu | hu
    · exact hu ▸ List.mem_cons_self _ _
    · exact List.mem_cons_of_mem _ (mem_id_mem_ids hu)
  exact subtree_ids_not_mem_delete hmem hnodup u.id hid (mem_id_mem_ids hcontra)

/-- C4 witness: in the concrete forest with root `t` (id `"t"`) holding
children `c1`, `c2`, deleting `"t"` removes the child `c1` as well. -/
theorem claim_C4_witness :
    ¬ MemForest (Task.mk { id := "c1", title := "child one" } [])
      (deleteTaskFromHierarchy "t"
        [Task.mk { id := "t", title := "root" }
          [Task.mk { id := "c1", title := "child one" } [],
           Task.mk { id := "c2", title := "child two" } []]]) :=
  claim_C4 (Task.mk { id := "t", title := "root" }
      [Task.mk { id := "c1", title := "child one" } [],
       Task.mk { id := "c2", title := "child two" } []])
    [Task.mk { id := "t", title := "root" }
      [Task.mk { id := "c1", title := "child one" } [],
       Task.mk { id := "c2", title := "child two" } []]]
    (MemForest.head _ _ _ rfl) (by simp [idsOfForest])
    (Task.mk { id := "c1", title := "child one" } [])
    (Or.inr (MemForest.head _ _ _ rfl))

/-- C5: for every forest `F` and identifier absent from `F`,
`updateTaskInHierarchy` and `deleteTaskFromHierarchy` both return `F`
unchanged (and, being total functions, raise no error). -/
theorem claim_C5 (taskId : String) (f : Task → Task) (F : List Task)
    (h : taskId ∉ idsOfForest F) :
    updateTaskInHierarchy taskId f F = F ∧ deleteTaskFromHierarchy taskId F = F :=
  ⟨update_noop_of_not_mem taskId f F h, delete_noop_of_not_mem taskId F h⟩

/-- C5 witness: the identifier `"zz"` is absent from a concrete two-task
forest; updating (with a function rewriting titles) and deleting it leave
the forest unchanged. -/
theorem claim_C5_witness :
    "zz" ∉ idsOfForest
        [Task.mk { id := "p", title := "parent" }
          [Task.mk { id := "c", title := "child" } []]] ∧
      updateTaskInHierarchy "zz"
          (fun t => Task.mk { t.data with title := "renamed" } t.children)
          [Task.mk { id := "p", title := "parent" }
            [Task.mk { id := "c", title := "child" } []]] =
        [Task.mk { id := "p", title := "parent" }
          [Task.mk { id := "c", title := "child" } []]] ∧
      deleteTaskFromHierarchy "zz"
          [Task.mk { id := "p", title := "parent" }
            [Task.mk { id := "c", title := "child" } []]] =
        [Task.mk { id := "p", title := "parent" }
          [Task.mk { id := "c", title := "child" } []]] := by
  refine ⟨by simp [idsOfForest], ?_⟩
  have h := claim_C5 "zz"
    (fun t => Task.mk { t.data with title := "renamed" } t.children)
    [Task.mk { id := "p", title := "parent" }
      [Task.mk { id := "c", title := "child" } []]] (by simp [idsOfForest])
  exact h

/-! ## IdentityResolver, from `src/context/TaskHelpers.ts`

`isValidUUID` tests the regular expression
`^[0-9a-f]{8}-[0-9a-f]{4}-[1-5][0-9a-f]{3}-[89ab][0-9a-f]{3}-[0-9a-f]{12}$`
with the case-insensitive flag; `ensureUUID` returns a conformant id
unchanged, otherwise consults the persisted mapping (`localStorage` key
`khonja_id_mapping`), generating, recording and returning a fresh
identifier on a miss.  The mapping store is embedded as an association
list, and the `uuidv4()` call as an explicit `gen` argument holding the
value the generator would produce on this call. -/

/-- A hexadecimal digit, upper or lower case (the `/i` flag makes
`[0-9a-f]` case-insensitive). -/
def isHexDigit (c : Char) : Bool :=
  (decide ('0' ≤ c) && decide (c ≤ '9')) ||
  (decide ('a' ≤ c) && decide (c ≤ 'f')) ||
  (decide ('A' ≤ c) && decide (c ≤ 'F'))

/-- The version nibble class `[1-5]`. -/
def isVersionDigit (c : Char) : Bool :=
  decide ('1' ≤ c) && decide (c ≤ '5')

/-- The variant nibble class `[89ab]`, case-insensitive. -/
def isVariantDigit (c : Char) : Bool :=
  c = '8' || c = '9' || c = 'a' || c = 'b' || c = 'A' || c = 'B'

/-- Consume exactly `n` hexadecimal digits, returning the rest. -/
def takeHex : Nat → List Char → Option (List Char)
  | 0, cs => some cs
  | _ + 1, [] => none
  | n + 1, c :: cs => if isHexDigit c then takeHex n cs else none

/-- Consume a literal dash. -/
def takeDash : List Char → Option (List Char)
  | '-' :: cs => some cs
  | _ => none

/-- Consume one character of the given class. -/
def takeClass (p : Char → Bool) : List Char → Option (List Char)
  | c :: cs => if p c then some cs else none
  | [] => none

/-- `isValidUUID` from `TaskHelpers.ts`: the anchored 8-4-4-4-12 layout with
constrained version and variant nibbles. -/
def isValidUUID (s : String) : Bool :=
  (do
    let cs ← takeHex 8 s.toList
    let cs ← takeDash cs
    let cs ← takeHex 4 cs
    let cs ← takeDash cs
    let cs ← takeClass isVersionDigit cs
    let cs ← takeHex 3 cs
    let cs ← takeDash cs
    let cs ← takeClass isVariantDigit cs
    let cs ← takeHex 3 cs
    let cs ← takeDash cs
    let cs ← takeHex 12 cs
    match cs with
    | [] => some ()
    | _ :: _ => none).isSome

/-- Property lookup on the stored mapping object (`mapping[id]`). -/
def lookupMapping (k : String) : List (String × String) → Option String
  | [] => none
  | (k2, v) :: rest => if k2 = k then some v else lookupMapping k rest

/-- `ensureUUID` from `TaskHelpers.ts`.  `gen` is the identifier `uuidv4()`
would produce on this call; the returned pair is the resolved identifier
and the mapping store after the call (the store is persisted, so it is the
state a restart would reload). -/
def ensureUUID (gen : String) (mapping : List (String × String)) (id : String) :
    String × List (String × String) :=
  if isValidUUID id then (id, mapping)
  else
    match lookupMapping id mapping with
    | some v => (v, mapping)
    | none => (gen, mapping ++ [(id, gen)])

/-- A successful mapping lookup returns a stored value. -/
theorem lookupMapping_mem {k v : String} :
    ∀ m : List (String × String), lookupMapping k m = some v → (k, v) ∈ m
  | [], h => by simp [lookupMapping] at h
  | (k2, v2) :: rest, h => by
    rw [lookupMapping] at h
    by_cases he : k2 = k
    · rw [if_pos he] at h
      subst he
      exact (Option.some.injEq _ _ ▸ h) ▸ List.mem_cons_self _ _
    · rw [if_neg he] at h
      exact List.mem_cons_of_mem _ (lookupMapping_mem rest h)

/-- Looking up a key just appended to a mapping that lacked it. -/
theorem lookupMapping_append {k g : String} :
    ∀ m : List (String × String), lookupMapping k m = none →
      lookupMapping k (m ++ [(k, g)]) = some g
  | [], _ => by simp [lookupMapping]
  | (k2, v2) :: rest, h => by
    rw [lookupMapping] at h
    by_cases he : k2 = k
    · rw [if_pos he] at h; exact absurd h (by simp)
    · rw [if_neg he] at h
      rw [List.cons_append, lookupMapping, if_neg he]
      exact lookupMapping_append rest h

/-- Resolving a non-conformant identifier present in the mapping returns the
stored identifier and leaves the store unchanged. -/
theorem ensureUUID_invalid_hit {id v : String} {m : List (String × String)}
    (gen : String) (hx : isValidUUID id = false)
    (hl : lookupMapping id m = some v) : ensureUUID gen m id = (v, m) := by
  rw [ensureUUID, if_neg (by simp [hx]), hl]

/-- Resolving a non-conformant identifier absent from the mapping returns the
generated identifier and records the new pair. -/
theorem ensureUUID_invalid_miss {id : String} {m : List (String × String)}
    (gen : String) (hx : isValidUUID id = false)
    (hl : lookupMapping id m = none) :
    ensureUUID gen m id = (gen, m ++ [(id, gen)]) := by
  rw [ensureUUID, if_neg (by simp [hx]), hl]

/-- Resolving a conformant identifier returns it unchanged. -/
theorem ensureUUID_valid {id : String} {m : List (String × String)}
    (gen : String) (hy : isValidUUID id = true) :
    ensureUUID gen m id = (id, m) := by
  rw [ensureUUID, if_pos hy]

/-! ## Claim C8 -/

/-- C8: against a mapping store whose stored values are all conformant and
with a conformant freshly generated identifier, resolving a non-conformant
identifier twice returns the same identifier both times (the second call,
with any later generator value, hits the persisted mapping — also the
mapping a restart reloads), the result differs from the input, and a
conformant identifier resolves to itself with the store untouched. -/
theorem claim_C8 (x gen gen2 : String) (m : List (String × String))
    (hx : isValidUUID x = false)
    (hm : ∀ p ∈ m, isValidUUID p.2 = true)
    (hgen : isValidUUID gen = true) :
    (ensureUUID gen2 (ensureUUID gen m x).2 x).1 = (ensureUUID gen m x).1 ∧
      (ensureUUID gen m x).1 ≠ x ∧
      ∀ y, isValidUUID y = true → ensureUUID gen m y = (y, m) := by
  refine ⟨?_, ?_, fun y hy => ensureUUID_valid gen hy⟩
  · cases hl : lookupMapping x m with
    | some v =>
      rw [ensureUUID_invalid_hit gen hx hl, ensureUUID_invalid_hit gen2 hx hl]
    | none =>
      rw [ensureUUID_invalid_miss gen hx hl,
        ensureUUID_invalid_hit gen2 hx (lookupMapping_append m hl)]
  · cases hl : lookupMapping x m with
    | some v =>
      rw [ensureUUID_invalid_hit gen hx hl]
      intro he
      have he2 : v = x := he
      have hv : isValidUUID v = true := hm (x, v) (lookupMapping_mem m hl)
      rw [he2, hx] at hv
      exact Bool.false_ne_true hv
    | none =>
      rw [ensureUUID_invalid_miss gen hx hl]
      intro he
      have he2 : gen = x := he
      rw [he2, hx] at hgen
      exact Bool.false_ne_true hgen

/-- C8 witness: the legacy identifier `"task-1-2"` resolved against the
empty store with a concrete version-4 identifier, then resolved again
against the resulting store. -/
theorem claim_C8_witness :
    isValidUUID "task-1-2" = false ∧
      isValidUUID "9b1deb4d-3b7d-4bad-9bdd-2b0d7b3dcb6d" = true ∧
      (ensureUUID "ffffffff-ffff-4fff-bfff-ffffffffffff"
          (ensureUUID "9b1deb4d-3b7d-4bad-9bdd-2b0d7b3dcb6d" [] "task-1-2").2
          "task-1-2").1 =
        (ensureUUID "9b1deb4d-3b7d-4bad-9bdd-2b0d7b3dcb6d" [] "task-1-2").1 ∧
      (ensureUUID "9b1deb4d-3b7d-4bad-9bdd-2b0d7b3dcb6d" [] "task-1-2").1 ≠
        "task-1-2" := by
  have h := claim_C8 "task-1-2" "9b1deb4d-3b7d-4bad-9bdd-2b0d7b3dcb6d"
    "ffffffff-ffff-4fff-bfff-ffffffffffff" []
    (by decide) (by simp) (by decide)
  exact ⟨by decide, by decide, h.1, h.2.1⟩

/-! ## LocalCache

The repository instantiates `new Cache({ ttl, capacity })` in
`src/services/serviceUtils.ts` (for example `projectsCache` with
`ttl: 300000`, `capacity: 100`), but the class itself lives in
`src/utils/cache-utils`, a file absent from the available sources; the
definitions below are therefore modelled from the spec (section 4.2
LocalCache).  Instants are natural-number timestamps. -/

/-- Modelled from the spec: a cache slot of the missing
`src/utils/cache-utils` `Cache` class — "value, insertion instant,
last-access instant". -/
structure CacheEntry (V : Type) where
  value : V
  insertedAt : Nat
  lastAccess : Nat
deriving DecidableEq, Repr

/-- Modelled from the spec: the missing `Cache` container, "configured with
`capacity` (positive integer) and `ttl` (positive duration)", holding keyed
entries. -/
structure LocalCache (V : Type) where
  capacity : Nat
  ttl : Nat
  entries : List (String × CacheEntry V)

/-- An empty cache with the given configuration. -/
def LocalCache.empty (V : Type) (capacity ttl : Nat) : LocalCache V :=
  ⟨capacity, ttl, []⟩

/-- First entry stored under a key. -/
def findEntry {V : Type} (k : String) : List (String × CacheEntry V) → Option (CacheEntry V)
  | [] => none
  | e :: rest => if e.1 = k then some e.2 else findEntry k rest

/-- Whether some entry is stored under a key. -/
def containsKey {V : Type} (k : String) : List (String × CacheEntry V) → Bool
  | [] => false
  | e :: rest => decide (e.1 = k) || containsKey k rest

/-- Replace the entry stored under a key. -/
def replaceEntry {V : Type} (k : String) (e2 : CacheEntry V) :
    List (String × CacheEntry V) → List (String × CacheEntry V)
  | [] => []
  | e :: rest => if e.1 = k then (k, e2) :: rest else e :: replaceEntry k e2 rest

/-- Remove the entries stored under a key. -/
def removeKey {V : Type} (k : String) :
    List (String × CacheEntry V) → List (String × CacheEntry V)
  | [] => []
  | e :: rest => if e.1 = k then removeKey k rest else e :: removeKey k rest

/-- Refresh the last-access instant of the entry stored under a key. -/
def touchEntry {V : Type} (k : String) (now : Nat) :
    List (String × CacheEntry V) → List (String × CacheEntry V)
  | [] => []
  | e :: rest =>
    if e.1 = k then (e.1, { e.2 with lastAccess := now }) :: rest
    else e :: touchEntry k now rest

/-- The least last-access instant among the stored entries. -/
def minLastAccess {V : Type} : List (String × CacheEntry V) → Nat
  | [] => 0
  | [e] => e.2.lastAccess
  | e :: e2 :: rest => min e.2.lastAccess (minLastAccess (e2 :: rest))

/-- Modelled from the spec: eviction of "the least-recently-used entry" of
the missing `Cache` class — drop the first entry whose last-access instant
is least. -/
def removeLRU {V : Type} (l : List (String × CacheEntry V)) :
    List (String × CacheEntry V) :=
  l.eraseP (fun e => e.2.lastAccess == minLastAccess l)

/-- Modelled from the spec: `get` of the missing `Cache` class — "returns
absent and removes the entry if `now − insertion > ttl`"; otherwise
"access via `get` refreshes recency" and the stored value is returned. -/
def LocalCache.get {V : Type} (now : Nat) (k : String) (c : LocalCache V) :
    Option V × LocalCache V :=
  match findEntry k c.entries with
  | none => (none, c)
  | some e =>
    if now - e.insertedAt > c.ttl then
      (none, { c with entries := removeKey k c.entries })
    else
      (some e.value, { c with entries := touchEntry k now c.entries })

/-- The entry list `set` stores: replace on an existing key; on a full
cache (`size == capacity`) evict the least-recently-used entry before
inserting; otherwise insert. -/
def setEntries {V : Type} (now : Nat) (k : String) (v : V) (c : LocalCache V) :
    List (String × CacheEntry V) :=
  if containsKey k c.entries then
    replaceEntry k ⟨v, now, now⟩ c.entries
  else if c.entries.length = c.capacity then
    removeLRU c.entries ++ [(k, ⟨v, now, now⟩)]
  else
    c.entries ++ [(k, ⟨v, now, now⟩)]

/-- Modelled from the spec: `set` of the missing `Cache` class — "`set` on a
full cache (size == capacity) evicts the least-recently-used entry before
inserting". -/
def LocalCache.set {V : Type} (now : Nat) (k : String) (v : V) (c : LocalCache V) :
    LocalCache V :=
  { c with entries := setEntries now k v c }

/-- Insert a list of key/value pairs at consecutive instants, with no
intervening reads. -/
def setAll {V : Type} (c : LocalCache V) (t : Nat) :
    List (String × V) → LocalCache V
  | [] => c
  | (k, v) :: rest => setAll (LocalCache.set t k v c) (t + 1) rest

/-- The entry list produced by inserting fresh keys at consecutive
instants. -/
def stamped {V : Type} : List (String × V) → Nat → List (String × CacheEntry V)
  | [], _ => []
  | (k, v) :: rest, t => (k, ⟨v, t, t⟩) :: stamped rest (t + 1)

theorem containsKey_eq_false_iff {V : Type} (k : String) :
    ∀ l : List (String × CacheEntry V),
      containsKey k l = false ↔ ∀ e ∈ l, e.1 ≠ k
  | [] => by simp [containsKey]
  | e :: rest => by
    simp only [containsKey, Bool.or_eq_false_iff, decide_eq_false_iff_not,
      List.mem_cons, forall_eq_or_imp]
    exact and_congr Iff.rfl (containsKey_eq_false_iff k rest)

theorem findEntry_append_fresh {V : Type} {k : String} {e : CacheEntry V} :
    ∀ l : List (String × CacheEntry V), containsKey k l = false →
      findEntry k (l ++ [(k, e)]) = some e
  | [], _ => by simp [findEntry]
  | e2 :: rest, h => by
    have h2 := (containsKey_eq_false_iff k (e2 :: rest)).mp h
    rw [List.cons_append, findEntry, if_neg (h2 e2 (List.mem_cons_self _ _))]
    exact findEntry_append_fresh rest
      ((containsKey_eq_false_iff k rest).mpr fun e3 he3 =>
        h2 e3 (List.mem_cons_of_mem _ he3))

theorem containsKey_removeLRU {V : Type} {k : String}
    {l : List (String × CacheEntry V)} (h : containsKey k l = false) :
    containsKey k (removeLRU l) = false :=
  (containsKey_eq_false_iff k _).mpr fun e he =>
    (containsKey_eq_false_iff k l).mp h e ((List.eraseP_sublist l).mem he)

theorem findEntry_replaceEntry {V : Type} {k : String} {e2 : CacheEntry V} :
    ∀ l : List (String × CacheEntry V), containsKey k l = true →
      findEntry k (replaceEntry k e2 l) = some e2
  | [], h => by simp [containsKey] at h
  | e :: rest, h => by
    by_cases he : e.1 = k
    · rw [replaceEntry, if_pos he, findEntry, if_pos rfl]
    · rw [containsKey, Bool.or_eq_true, decide_eq_true_eq] at h
      rw [replaceEntry, if_neg he, findEntry, if_neg he]
      exact findEntry_replaceEntry rest (h.resolve_left he)

theorem containsKey_removeKey {V : Type} (k : String) :
    ∀ l : List (String × CacheEntry V), containsKey k (removeKey k l) = false
  | [] => by simp [removeKey, containsKey]
  | e :: rest => by
    by_cases he : e.1 = k
    · rw [removeKey, if_pos he]
      exact containsKey_removeKey k rest
    · rw [removeKey, if_neg he, containsKey, containsKey_removeKey k rest]
      simp [he]

/-- `set` always leaves the just-written key readable with its fresh
metadata, whichever branch (replace, evict-then-insert, insert) ran. -/
theorem findEntry_setEntries {V : Type} (now : Nat) (k : String) (v : V)
    (c : LocalCache V) :
    findEntry k (setEntries now k v c) = some ⟨v, now, now⟩ := by
  rw [setEntries]
  by_cases h1 : containsKey k c.entries
  · rw [if_pos h1]
    exact findEntry_replaceEntry c.entries h1
  · rw [if_neg h1]
    by_cases h2 : c.entries.length = c.capacity
    · rw [if_pos h2]
      exact findEntry_append_fresh _
        (containsKey_removeLRU (Bool.eq_false_iff.mpr h1))
    · rw [if_neg h2]
      exact findEntry_append_fresh _ (Bool.eq_false_iff.mpr h1)

theorem containsKey_append {V : Type} (k : String) :
    ∀ (l l2 : List (String × CacheEntry V)),
      containsKey k (l ++ l2) = (containsKey k l || containsKey k l2)
  | [], l2 => by simp [containsKey]
  | e :: rest, l2 => by
    rw [List.cons_append, containsKey, containsKey, containsKey_append k rest,
      Bool.or_assoc]

/-- Filling a cache with fresh, pairwise distinct keys below capacity
appends the freshly stamped entries in insertion order. -/
theorem setAll_fill {V : Type} :
    ∀ (items : List (String × V)) (c : LocalCache V) (t : Nat),
      (∀ p ∈ items, containsKey p.1 c.entries = false) →
      (items.map Prod.fst).Nodup →
      c.entries.length + items.length ≤ c.capacity →
      (setAll c t items).entries = c.entries ++ stamped items t
  | [], c, t, _, _, _ => by simp [setAll, stamped]
  | (k, v) :: rest, c, t, hfresh, hnodup, hlen => by
    rw [setAll]
    have hk : containsKey k c.entries = false :=
      hfresh (k, v) (List.mem_cons_self _ _)
    have hlt : c.entries.length < c.capacity := by
      simp only [List.length_cons] at hlen
      omega
    have hset : (LocalCache.set t k v c).entries =
        c.entries ++ [(k, ⟨v, t, t⟩)] := by
      rw [LocalCache.set]
      simp only
      rw [setEntries, if_neg (by simp [hk]), if_neg (Nat.ne_of_lt hlt)]
    simp only [List.map_cons, List.nodup_cons, List.mem_map] at hnodup
    have hres := setAll_fill rest (LocalCache.set t k v c) (t + 1)
      (fun p hp => by
        rw [hset, containsKey_append]
        have hpk : p.1 ≠ k := fun he =>
          hnodup.1 ⟨p, hp, he⟩
        have : containsKey p.1 [(k, (⟨v, t, t⟩ : CacheEntry V))] = false := by
          simp [containsKey, hpk.symm]
        rw [this, hfresh p (List.mem_cons_of_mem _ hp), Bool.or_self])
      hnodup.2
      (by
        rw [hset]
        simp only [List.length_append, List.length_cons, List.length_nil,
          LocalCache.set]
        simp only [List.length_cons] at hlen
        omega)
    rw [hres, hset, List.append_assoc, List.cons_append, List.nil_append, stamped]

theorem stamped_map_fst {V : Type} :
    ∀ (items : List (String × V)) (t : Nat),
      (stamped items t).map Prod.fst = items.map Prod.fst
  | [], _ => rfl
  | (k, v) :: rest, t => by
    rw [stamped, List.map_cons, List.map_cons, stamped_map_fst rest (t + 1)]

theorem minLastAccess_stamped {V : Type} :
    ∀ (rest : List (String × V)) (k : String) (v : V) (t : Nat),
      minLastAccess (stamped ((k, v) :: rest) t) = t
  | [], k, v, t => by simp [stamped, minLastAccess]
  | (k2, v2) :: rest2, k, v, t => by
    have h := minLastAccess_stamped rest2 k2 v2 (t + 1)
    simp only [stamped] at h ⊢
    rw [minLastAccess, h]
    show min t (t + 1) = t
    exact Nat.min_eq_left (by omega)

/-- Evicting from a consecutively stamped entry list drops the
first-inserted entry. -/
theorem removeLRU_stamped {V : Type} (rest : List (String × V)) (k : String)
    (v : V) (t : Nat) :
    removeLRU (stamped ((k, v) :: rest) t) = stamped rest (t + 1) := by
  rw [removeLRU, minLastAccess_stamped rest k v t, stamped,
    List.eraseP_cons_of_pos]
  simp

theorem setAll_capacity {V : Type} :
    ∀ (items : List (String × V)) (c : LocalCache V) (t : Nat),
      (setAll c t items).capacity = c.capacity
  | [], _, _ => rfl
  | (k, v) :: rest, c, t => by
    rw [setAll, setAll_capacity rest]
    rfl

theorem setAll_append {V : Type} :
    ∀ (xs ys : List (String × V)) (c : LocalCache V) (t : Nat),
      setAll c t (xs ++ ys) = setAll (setAll c t xs) (t + xs.length) ys
  | [], ys, c, t => by simp [setAll]
  | (k, v) :: xs, ys, c, t => by
    rw [List.cons_append, setAll, setAll,
      setAll_append xs ys (LocalCache.set t k v c) (t + 1)]
    have h : t + 1 + xs.length = t + ((k, v) :: xs).length := by
      simp only [List.length_cons]
      omega
    rw [h]

/-- Unfolding of `get` on a present key. -/
theorem LocalCache.get_some {V : Type} (now : Nat) (k : String)
    (c : LocalCache V) (e : CacheEntry V) (hf : findEntry k c.entries = some e) :
    LocalCache.get now k c =
      if now - e.insertedAt > c.ttl then
        (none, { c with entries := removeKey k c.entries })
      else
        (some e.value, { c with entries := touchEntry k now c.entries }) := by
  simp only [LocalCache.get, hf]

/-! ## Claim C9 -/

/-- C9: for the modelled LocalCache — (a) a `set` followed immediately by a
`get` of the same key returns the stored value; (b) a `get` performed more
than `ttl` after insertion, with no intervening access, returns absent and
removes the entry; (c) inserting `capacity + 1` pairwise distinct keys into
an initially empty cache of positive capacity, with no intervening reads,
evicts exactly the first-inserted key. -/
theorem claim_C9 {V : Type} :
    (∀ (c : LocalCache V) (now : Nat) (k : String) (v : V),
      (LocalCache.get now k (LocalCache.set now k v c)).1 = some v) ∧
    (∀ (c : LocalCache V) (t0 t1 : Nat) (k : String) (v : V),
      t1 - t0 > c.ttl →
      (LocalCache.get t1 k (LocalCache.set t0 k v c)).1 = none ∧
      containsKey k (LocalCache.get t1 k (LocalCache.set t0 k v c)).2.entries
        = false) ∧
    (∀ (cap ttl : Nat) (items : List (String × V)) (klast : String) (vlast : V),
      0 < cap → items.length = cap →
      ((items ++ [(klast, vlast)]).map Prod.fst).Nodup →
      (setAll (LocalCache.empty V cap ttl) 0
          (items ++ [(klast, vlast)])).entries.map Prod.fst =
        ((items ++ [(klast, vlast)]).map Prod.fst).tail) := by
  refine ⟨?_, ?_, ?_⟩
  · intro c now k v
    rw [LocalCache.get_some now k _ _ (findEntry_setEntries now k v c)]
    rw [if_neg (by simp)]
  · intro c t0 t1 k v h
    rw [LocalCache.get_some t1 k _ _ (findEntry_setEntries t0 k v c)]
    rw [if_pos (show t1 - (⟨v, t0, t0⟩ : CacheEntry V).insertedAt >
      (LocalCache.set t0 k v c).ttl from h)]
    exact ⟨rfl, containsKey_removeKey k _⟩
  · intro cap ttl items klast vlast hpos hlen hnodup
    obtain ⟨⟨k0, v0⟩, rest, hitems⟩ : ∃ p rest, items = p :: rest := by
      cases items with
      | nil => simp at hlen; omega
      | cons p rest => exact ⟨p, rest, rfl⟩
    have hnd2 := hnodup
    rw [List.map_append, List.nodup_append] at hnd2
    have hfill : (setAll (LocalCache.empty V cap ttl) 0 items).entries =
        stamped items 0 := by
      have h := setAll_fill items (LocalCache.empty V cap ttl) 0
        (fun p _ => by simp [LocalCache.empty, containsKey])
        hnd2.1
        (by simp [LocalCache.empty, hlen])
      simpa [LocalCache.empty] using h
    rw [setAll_append items [(klast, vlast)] _ 0]
    rw [setAll, setAll, LocalCache.set]
    have hkfresh :
        containsKey klast (setAll (LocalCache.empty V cap ttl) 0 items).entries
          = false := by
      rw [hfill]
      refine (containsKey_eq_false_iff klast _).mpr fun e he => fun heq => ?_
      have : e.1 ∈ (stamped items 0).map Prod.fst := List.mem_map_of_mem _ he
      rw [stamped_map_fst] at this
      exact hnd2.2.2 (heq ▸ this) (by simp)
    have hcap :
        (setAll (LocalCache.empty V cap ttl) 0 items).entries.length =
          (setAll (LocalCache.empty V cap ttl) 0 items).capacity := by
      rw [hfill, setAll_capacity]
      have : (stamped items 0).length = items.length := by
        have h2 := congrArg List.length (stamped_map_fst items 0)
        simpa using h2
      simp [LocalCache.empty, this, hlen]
    rw [setEntries, if_neg (by simp [hkfresh]), if_pos hcap, hfill, hitems,
      removeLRU_stamped]
    simp only [List.map_append, List.map_cons, List.append_nil]
    rw [stamped_map_fst]
    simp [hitems]

/-- C9 witness: a concrete cache of capacity 2 and ttl 5 over natural-number
values — an immediate round-trip returns the value, a read 6 instants
after insertion misses, and inserting the three distinct keys a, b, c
evicts the key a. -/
theorem claim_C9_witness :
    (LocalCache.get 0 "a" (LocalCache.set 0 "a" (7 : Nat)
        (LocalCache.empty Nat 2 5))).1 = some 7 ∧
      (LocalCache.get 6 "a" (LocalCache.set 0 "a" (7 : Nat)
        (LocalCache.empty Nat 2 5))).1 = none ∧
      (setAll (LocalCache.empty Nat 2 5) 0
          [("a", 1), ("b", 2), ("c", 3)]).entries.map Prod.fst = ["b", "c"] := by
  refine ⟨claim_C9.1 _ 0 "a" 7, (claim_C9.2.1 _ 0 6 "a" 7 (by decide)).1, ?_⟩
  have h := claim_C9.2.2 2 5 [("a", 1), ("b", 2)] "c" 3 (by decide) (by decide)
    (by decide)
  simpa using h

/-! ## Time-tracking service, from `src/services/timeTrackingService.ts`

The remote store is embedded as row lists: `tasks` rows expose the
`time_tracked` column these functions read and write, `time_trackings`
rows the tracking columns.  A supabase `.select(...).eq('id', x).single()`
is a first-match lookup that throws when no row matches — embedded as
`Option`, with `none` for the thrown error; `.update(...).eq('id', x)`
rewrites every matching row; `.delete().eq('id', x)` drops every matching
row.  JavaScript `Date.getTime()` values are integer milliseconds. -/

/-- A `tasks` row, restricted to the columns the time-tracking service
touches: the primary identifier and the `time_tracked` minute counter. -/
structure TaskRow where
  id : String
  timeTracked : Int
deriving DecidableEq, Repr

/-- A `time_trackings` row: identifier, owning `task_id`, `start_time`,
optional `end_time`, `duration` in whole minutes, optional notes. -/
structure TrackRow where
  id : String
  taskId : String
  startMs : Int
  endMs : Option Int
  duration : Int
  notes : Option String
deriving DecidableEq, Repr

/-- The relevant remote-store state. -/
structure ServiceDB where
  tasks : List TaskRow
  trackings : List TrackRow
deriving DecidableEq, Repr

/-- `.from('tasks').select(...).eq('id', id).single()`. -/
def findTask (id : String) : List TaskRow → Option TaskRow
  | [] => none
  | r :: rest => if r.id = id then some r else findTask id rest

/-- `.from('time_trackings').select(...).eq('id', id).single()`. -/
def findTracking (id : String) : List TrackRow → Option TrackRow
  | [] => none
  | r :: rest => if r.id = id then some r else findTracking id rest

/-- `.from('tasks').update(...).eq('id', id)`. -/
def updateTaskRow (id : String) (f : TaskRow → TaskRow) (l : List TaskRow) :
    List TaskRow :=
  l.map fun r => if r.id = id then f r else r

/-- `.from('time_trackings').update(...).eq('id', id)`. -/
def updateTrackRow (id : String) (f : TrackRow → TrackRow) (l : List TrackRow) :
    List TrackRow :=
  l.map fun r => if r.id = id then f r else r

/-- `.from('time_trackings').delete().eq('id', id)`: drop every matching
row. -/
def removeTrackRow (id : String) : List TrackRow → List TrackRow
  | [] => []
  | r :: rest =>
    if r.id = id then removeTrackRow id rest else r :: removeTrackRow id rest

/-- Write a freshly computed `time_tracked` value into a task row (the
service computes `newTimeTracked` first, then updates the column with the
constant). -/
def setTracked (x : Int) : TaskRow → TaskRow :=
  fun r => { r with timeTracked := x }

/-- The column writes of the stop update: `end_time` and `duration`. -/
def stopFields (nowMs d : Int) : TrackRow → TrackRow :=
  fun r => { r with endMs := some nowMs, duration := d }

/-- The column writes of the edit update: `start_time`, `end_time`,
`duration`, `notes`. -/
def editFields (tr : TrackRow) : TrackRow → TrackRow :=
  fun r => { r with startMs := tr.startMs, endMs := tr.endMs,
                    duration := tr.duration, notes := tr.notes }

@[simp] theorem setTracked_id (x : Int) (r : TaskRow) :
    (setTracked x r).id = r.id := rfl

@[simp] theorem stopFields_id (nowMs d : Int) (r : TrackRow) :
    (stopFields nowMs d r).id = r.id := rfl

@[simp] theorem stopFields_taskId (nowMs d : Int) (r : TrackRow) :
    (stopFields nowMs d r).taskId = r.taskId := rfl

@[simp] theorem editFields_id (tr r : TrackRow) :
    (editFields tr r).id = r.id := rfl

@[simp] theorem editFields_taskId (tr r : TrackRow) :
    (editFields tr r).taskId = r.taskId := rfl

/-- `startTimeTracking` from `timeTrackingService.ts`: insert a row with the
current instant as start, no end, duration 0.  `newId` is the row
identifier the store generates. -/
def startTimeTracking (newId taskId : String) (nowMs : Int)
    (notes : Option String) (db : ServiceDB) : ServiceDB :=
  { db with trackings := db.trackings ++ [⟨newId, taskId, nowMs, none, 0, notes⟩] }

/-- `stopTimeTracking` from `timeTrackingService.ts`: read the entry's
start, set its end to now and its duration to
`Math.floor((end - start) / 60000)` (no clamping), then add that duration
to the task's `time_tracked`. -/
def stopTimeTracking (timeTrackingId taskId : String) (nowMs : Int)
    (db : ServiceDB) : Option ServiceDB :=
  match findTracking timeTrackingId db.trackings with
  | none => none
  | some tr =>
    let durationInMinutes := Int.fdiv (nowMs - tr.startMs) 60000
    let db1 : ServiceDB :=
      ⟨db.tasks, updateTrackRow timeTrackingId
        (stopFields nowMs durationInMinutes) db.trackings⟩
    match findTask taskId db1.tasks with
    | none => none
    | some task =>
      some ⟨updateTaskRow taskId
        (setTracked (task.timeTracked + durationInMinutes)) db1.tasks,
        db1.trackings⟩

/-- `addManualTimeTracking` from `timeTrackingService.ts`: insert the
completed entry, then add its duration to the task's `time_tracked` (no
clamping). -/
def addManualTimeTracking (newId taskId : String) (startMs : Int)
    (endMs : Option Int) (duration : Int) (notes : Option String)
    (db : ServiceDB) : Option ServiceDB :=
  let db1 : ServiceDB :=
    ⟨db.tasks, db.trackings ++ [⟨newId, taskId, startMs, endMs, duration, notes⟩]⟩
  match findTask taskId db1.tasks with
  | none => none
  | some task =>
    some ⟨updateTaskRow taskId (setTracked (task.timeTracked + duration))
      db1.tasks, db1.trackings⟩

/-- `updateTimeTracking` from `timeTrackingService.ts`: read the original
duration and task, rewrite the entry's start/end/duration/notes, and only
when the duration changed, set the task's `time_tracked` to
`Math.max(0, old + difference)`. -/
def updateTimeTracking (tr : TrackRow) (db : ServiceDB) : Option ServiceDB :=
  match findTracking tr.id db.trackings with
  | none => none
  | some orig =>
    let durationDifference := tr.duration - orig.duration
    let db1 : ServiceDB :=
      ⟨db.tasks, updateTrackRow tr.id (editFields tr) db.trackings⟩
    if durationDifference ≠ 0 then
      match findTask orig.taskId db1.tasks with
      | none => none
      | some task =>
        some ⟨updateTaskRow orig.taskId
          (setTracked (max 0 (task.timeTracked + durationDifference)))
          db1.tasks, db1.trackings⟩
    else
      some db1

/-- `deleteTimeTracking` from `timeTrackingService.ts`: read the entry,
delete it, and set the task's `time_tracked` to
`Math.max(0, old - duration)`. -/
def deleteTimeTracking (trackingId : String) (db : ServiceDB) :
    Option ServiceDB :=
  match findTracking trackingId db.trackings with
  | none => none
  | some tr =>
    let db1 : ServiceDB := ⟨db.tasks, removeTrackRow trackingId db.trackings⟩
    match findTask tr.taskId db1.tasks with
    | none => none
    | some task =>
      some ⟨updateTaskRow tr.taskId
        (setTracked (max 0 (task.timeTracked - tr.duration))) db1.tasks,
        db1.trackings⟩

/-- A time-tracking operation of the service layer. -/
inductive TrackOp where
  | start (newId taskId : String) (nowMs : Int) (notes : Option String)
  | stop (timeTrackingId taskId : String) (nowMs : Int)
  | add (newId taskId : String) (startMs : Int) (endMs : Option Int)
      (duration : Int) (notes : Option String)
  | edit (tr : TrackRow)
  | delete (trackingId : String)

/-- Apply one operation through the service functions. -/
def applyOp : TrackOp → ServiceDB → Option ServiceDB
  | .start newId taskId nowMs notes, db =>
    some (startTimeTracking newId taskId nowMs notes db)
  | .stop timeTrackingId taskId nowMs, db =>
    stopTimeTracking timeTrackingId taskId nowMs db
  | .add newId taskId startMs endMs duration notes, db =>
    addManualTimeTracking newId taskId startMs endMs duration notes db
  | .edit tr, db => updateTimeTracking tr db
  | .delete trackingId, db => deleteTimeTracking trackingId db

/-- Sum of the durations of the tracking rows owned by a task. -/
def sumDurations (taskId : String) : List TrackRow → Int
  | [] => 0
  | r :: rest =>
    (if r.taskId = taskId then r.duration else 0) + sumDurations taskId rest

theorem findTracking_mem {id : String} {tr : TrackRow} :
    ∀ l : List TrackRow, findTracking id l = some tr → tr ∈ l
  | [], h => by simp [findTracking] at h
  | r :: rest, h => by
    rw [findTracking] at h
    by_cases he : r.id = id
    · rw [if_pos he, Option.some.injEq] at h
      exact h ▸ List.mem_cons_self _ _
    · rw [if_neg he] at h
      exact List.mem_cons_of_mem _ (findTracking_mem rest h)

theorem findTracking_id {id : String} {tr : TrackRow} :
    ∀ l : List TrackRow, findTracking id l = some tr → tr.id = id
  | [], h => by simp [findTracking] at h
  | r :: rest, h => by
    rw [findTracking] at h
    by_cases he : r.id = id
    · rw [if_pos he, Option.some.injEq] at h
      exact h ▸ he
    · rw [if_neg he] at h
      exact findTracking_id rest h

theorem findTracking_eq_none_iff {id : String} :
    ∀ l : List TrackRow, findTracking id l = none ↔ ∀ r ∈ l, r.id ≠ id
  | [] => by simp [findTracking]
  | r :: rest => by
    rw [findTracking]
    by_cases he : r.id = id
    · simp [he]
    · rw [if_neg he]
      simp only [List.mem_cons, forall_eq_or_imp]
      exact (findTracking_eq_none_iff rest).trans
        (Iff.symm (and_iff_right he))

theorem updateTrackRow_eq_of_forall_ne {id : String} {f : TrackRow → TrackRow}
    {l : List TrackRow} (h : ∀ r ∈ l, r.id ≠ id) :
    updateTrackRow id f l = l := by
  rw [updateTrackRow]
  induction l with
  | nil => rfl
  | cons r rest ih =>
    rw [List.map_cons, if_neg (h r (List.mem_cons_self _ _)),
      ih fun r2 h2 => h r2 (List.mem_cons_of_mem _ h2)]

theorem eq_findTracking_of_nodup {id : String} {tr r : TrackRow} :
    ∀ l : List TrackRow, (l.map TrackRow.id).Nodup →
      findTracking id l = some tr → r ∈ l → r.id = id → r = tr
  | [], _, h, _, _ => by simp [findTracking] at h
  | r2 :: rest, hn, h, hm, hr => by
    rw [List.map_cons, List.nodup_cons] at hn
    rw [findTracking] at h
    rcases List.mem_cons.mp hm with hm | hm
    · subst hm
      rw [if_pos hr, Option.some.injEq] at h
      exact h
    · by_cases he : r2.id = id
      · exact absurd (he ▸ hr ▸ List.mem_map_of_mem TrackRow.id hm) hn.1
      · rw [if_neg he] at h
        exact eq_findTracking_of_nodup rest hn.2 h hm hr

theorem mem_updateTrackRow {id : String} {f : TrackRow → TrackRow}
    {l : List TrackRow} {r2 : TrackRow} (h : r2 ∈ updateTrackRow id f l) :
    (∃ r ∈ l, r.id = id ∧ r2 = f r) ∨ r2 ∈ l := by
  rw [updateTrackRow] at h
  obtain ⟨r, hr, he⟩ := List.mem_map.mp h
  by_cases hid : r.id = id
  · rw [if_pos hid] at he
    exact Or.inl ⟨r, hr, hid, he.symm⟩
  · rw [if_neg hid] at he
    exact Or.inr (he ▸ hr)

theorem map_id_updateTrackRow (id : String) (f : TrackRow → TrackRow)
    (hf : ∀ r, (f r).id = r.id) (l : List TrackRow) :
    (updateTrackRow id f l).map TrackRow.id = l.map TrackRow.id := by
  rw [updateTrackRow, List.map_map]
  refine List.map_congr_left fun r _ => ?_
  by_cases hid : r.id = id
  · simp [hid, hf]
  · simp [hid]

theorem sumDurations_append (taskId : String) (r : TrackRow) :
    ∀ l : List TrackRow, sumDurations taskId (l ++ [r]) =
      sumDurations taskId l + (if r.taskId = taskId then r.duration else 0)
  | [] => by simp [sumDurations]
  | r2 :: rest => by
    rw [List.cons_append, sumDurations, sumDurations,
      sumDurations_append taskId r rest]
    ring

theorem sumDurations_nonneg (taskId : String) :
    ∀ l : List TrackRow, (∀ r ∈ l, r.taskId = taskId → 0 ≤ r.duration) →
      0 ≤ sumDurations taskId l
  | [], _ => le_refl 0
  | r :: rest, h => by
    rw [sumDurations]
    have h1 : (0 : Int) ≤ if r.taskId = taskId then r.duration else 0 := by
      by_cases he : r.taskId = taskId
      · rw [if_pos he]; exact h r (List.mem_cons_self _ _) he
      · rw [if_neg he]
    have h2 := sumDurations_nonneg taskId rest
      fun r2 hm => h r2 (List.mem_cons_of_mem _ hm)
    omega

theorem sumDurations_updateTrackRow (taskId : String) {id : String}
    {f : TrackRow → TrackRow} {tr : TrackRow} (hf : ∀ r, (f r).taskId = r.taskId) :
    ∀ l : List TrackRow, (l.map TrackRow.id).Nodup →
      findTracking id l = some tr →
      sumDurations taskId (updateTrackRow id f l) =
        sumDurations taskId l -
          (if tr.taskId = taskId then tr.duration else 0) +
          (if tr.taskId = taskId then (f tr).duration else 0)
  | [], _, h => by simp [findTracking] at h
  | r :: rest, hn, h => by
    rw [List.map_cons, List.nodup_cons] at hn
    rw [findTracking] at h
    rw [updateTrackRow, List.map_cons]
    by_cases he : r.id = id
    · rw [if_pos he, Option.some.injEq] at h
      subst h
      rw [if_pos he]
      have hrest : updateTrackRow id f rest = rest :=
        updateTrackRow_eq_of_forall_ne fun r2 h2 heq =>
          hn.1 ((heq.trans he.symm) ▸ List.mem_map_of_mem TrackRow.id h2)
      rw [updateTrackRow] at hrest
      rw [hrest, sumDurations, sumDurations, hf r]
      by_cases ht : r.taskId = taskId
      · simp only [if_pos ht]; ring
      · simp only [if_neg ht]; ring
    · rw [if_neg he] at h
      rw [if_neg he, sumDurations, sumDurations]
      have ih := sumDurations_updateTrackRow taskId hf rest hn.2 h
      rw [updateTrackRow] at ih
      rw [ih]
      ring

/-- `removeTrackRow` leaves a list untouched when no row matches. -/
theorem removeTrackRow_eq_of_forall_ne {id : String} :
    ∀ l : List TrackRow, (∀ r ∈ l, r.id ≠ id) → removeTrackRow id l = l
  | [], _ => rfl
  | r :: rest, h => by
    rw [removeTrackRow, if_neg (h r (List.mem_cons_self _ _)),
      removeTrackRow_eq_of_forall_ne rest
        fun r2 h2 => h r2 (List.mem_cons_of_mem _ h2)]

theorem sumDurations_removeTrackRow (taskId : String) {id : String}
    {tr : TrackRow} :
    ∀ l : List TrackRow, (l.map TrackRow.id).Nodup →
      findTracking id l = some tr →
      sumDurations taskId (removeTrackRow id l) =
        sumDurations taskId l - (if tr.taskId = taskId then tr.duration else 0)
  | [], _, h => by simp [findTracking] at h
  | r :: rest, hn, h => by
    rw [List.map_cons, List.nodup_cons] at hn
    rw [findTracking] at h
    rw [removeTrackRow]
    by_cases he : r.id = id
    · rw [if_pos he, Option.some.injEq] at h
      subst h
      rw [if_pos he]
      have hrest : removeTrackRow id rest = rest :=
        removeTrackRow_eq_of_forall_ne rest fun r2 h2 heq =>
          hn.1 ((heq.trans he.symm) ▸ List.mem_map_of_mem TrackRow.id h2)
      rw [hrest, sumDurations]
      ring
    · rw [if_neg he] at h
      rw [if_neg he, sumDurations, sumDurations,
        sumDurations_removeTrackRow taskId rest hn.2 h]
      ring

theorem removeTrackRow_sublist (id : String) :
    ∀ l : List TrackRow, List.Sublist (removeTrackRow id l) l
  | [] => List.Sublist.slnil
  | r :: rest => by
    rw [removeTrackRow]
    by_cases he : r.id = id
    · rw [if_pos he]
      exact (removeTrackRow_sublist id rest).cons r
    · rw [if_neg he]
      exact (removeTrackRow_sublist id rest).cons₂ r

theorem mem_removeTrackRow {id : String} {l : List TrackRow} {r : TrackRow}
    (h : r ∈ removeTrackRow id l) : r ∈ l :=
  (removeTrackRow_sublist id l).mem h

theorem nodup_map_id_removeTrackRow {id : String} {l : List TrackRow}
    (hn : (l.map TrackRow.id).Nodup) :
    ((removeTrackRow id l).map TrackRow.id).Nodup :=
  hn.sublist ((removeTrackRow_sublist id l).map TrackRow.id)

theorem findTask_updateTaskRow (id : String) (f : TaskRow → TaskRow)
    (hf : ∀ r, (f r).id = r.id) :
    ∀ l : List TaskRow,
      findTask id (updateTaskRow id f l) = (findTask id l).map f
  | [] => rfl
  | r :: rest => by
    have ih := findTask_updateTaskRow id f hf rest
    rw [updateTaskRow] at ih
    by_cases he : r.id = id
    · simp only [updateTaskRow, List.map_cons, findTask, if_pos he, hf r]
      rfl
    · simp only [updateTaskRow, List.map_cons, findTask, if_neg he, hf r]
      exact ih

/-- Apply a whole sequence of operations, failing when any step fails. -/
def applyOps : List TrackOp → ServiceDB → Option ServiceDB
  | [], db => some db
  | op :: ops, db =>
    match applyOp op db with
    | none => none
    | some db2 => applyOps ops db2

/-- The aggregate invariant of the time-tracking bookkeeping for one task:
the task's `time_tracked` equals the sum of its entries' durations, every
entry of the task has a nonnegative duration, active entries (no end
instant) carry duration 0, and entry identifiers are duplicate-free. -/
structure TrackInv (T : String) (db : ServiceDB) : Prop where
  tracked_eq : ∀ task, findTask T db.tasks = some task →
    task.timeTracked = sumDurations T db.trackings
  nonneg : ∀ r ∈ db.trackings, r.taskId = T → 0 ≤ r.duration
  active_zero : ∀ r ∈ db.trackings, r.taskId = T → r.endMs = none →
    r.duration = 0
  nodup : (db.trackings.map TrackRow.id).Nodup

/-- Well-formedness of one operation aimed at task `T` at the state where it
runs: identifiers the store generates are fresh, a stop targets an active
entry of the task at an instant not before its start, manual additions and
edits carry an end instant and a nonnegative duration, and deletions target
an entry of the task. -/
def OpOk (T : String) : TrackOp → ServiceDB → Prop
  | .start newId taskId _ _, db =>
    T = taskId ∧ findTracking newId db.trackings = none
  | .stop timeTrackingId taskId nowMs, db =>
    T = taskId ∧ ∃ tr, findTracking timeTrackingId db.trackings = some tr ∧
      tr.taskId = T ∧ tr.endMs = none ∧ tr.startMs ≤ nowMs
  | .add newId taskId _ endMs duration _, db =>
    T = taskId ∧ findTracking newId db.trackings = none ∧
      endMs ≠ none ∧ 0 ≤ duration
  | .edit tr, db =>
    (∃ orig, findTracking tr.id db.trackings = some orig ∧ orig.taskId = T) ∧
      tr.endMs ≠ none ∧ 0 ≤ tr.duration
  | .delete trackingId, db =>
    ∃ tr, findTracking trackingId db.trackings = some tr ∧ tr.taskId = T

/-- A sequence of operations, each well-formed and successful at the state
where it runs (no reconciliation failures). -/
inductive LegalSeq (T : String) : ServiceDB → List TrackOp → ServiceDB → Prop
  | nil (db : ServiceDB) : LegalSeq T db [] db
  | cons (db db2 db3 : ServiceDB) (op : TrackOp) (ops : List TrackOp) :
      OpOk T op db → applyOp op db = some db2 → LegalSeq T db2 ops db3 →
      LegalSeq T db (op :: ops) db3

/-- One well-formed, successful operation preserves the aggregate
invariant. -/
theorem trackInv_step {T : String} {op : TrackOp} {db db2 : ServiceDB}
    (hinv : TrackInv T db) (hok : OpOk T op db)
    (happ : applyOp op db = some db2) : TrackInv T db2 := by
  cases op with
  | start newId taskId nowMs notes =>
    obtain ⟨htid, hfresh⟩ := hok
    subst htid
    rw [applyOp, Option.some.injEq] at happ
    have hdb : db2 = ⟨db.tasks,
        db.trackings ++ [⟨newId, T, nowMs, none, 0, notes⟩]⟩ := by
      rw [← happ, startTimeTracking]
    subst hdb
    refine ⟨?_, ?_, ?_, ?_⟩
    · intro task hfind
      rw [sumDurations_append]
      have h0 : (if (⟨newId, T, nowMs, none, 0, notes⟩ :
          TrackRow).taskId = T then
            (⟨newId, T, nowMs, none, 0, notes⟩ : TrackRow).duration
          else 0) = 0 := by
        simp
      rw [h0, add_zero]
      exact hinv.tracked_eq task hfind
    · intro r hr hrT
      rcases List.mem_append.mp hr with hr | hr
      · exact hinv.nonneg r hr hrT
      · have he := List.mem_singleton.mp hr
        subst he
        exact le_refl 0
    · intro r hr hrT hre
      rcases List.mem_append.mp hr with hr | hr
      · exact hinv.active_zero r hr hrT hre
      · have he := List.mem_singleton.mp hr
        subst he
        rfl
    · rw [List.map_append, List.nodup_append]
      refine ⟨hinv.nodup, List.nodup_singleton _, fun s hs hs2 => ?_⟩
      simp only [List.map_cons, List.map_nil, List.mem_singleton] at hs2
      obtain ⟨r, hr, hrid⟩ := List.mem_map.mp hs
      exact (findTracking_eq_none_iff db.trackings).mp hfresh r hr
        (hrid.trans hs2)
  | stop timeTrackingId taskId nowMs =>
    obtain ⟨htid, tr, htr, htrT, hend, hstart⟩ := hok
    subst htid
    simp only [applyOp, stopTimeTracking, htr] at happ
    cases hft : findTask T db.tasks with
    | none => rw [hft] at happ; exact absurd happ (by simp)
    | some task =>
      rw [hft, Option.some.injEq] at happ
      have hd : 0 ≤ Int.fdiv (nowMs - tr.startMs) 60000 :=
        Int.fdiv_nonneg (by omega) (by omega)
      have htr0 : tr.duration = 0 :=
        hinv.active_zero tr (findTracking_mem db.trackings htr) htrT hend
      have hT : db2.tasks = updateTaskRow T
          (setTracked (task.timeTracked + Int.fdiv (nowMs - tr.startMs) 60000))
          db.tasks := by rw [← happ]
      have hK : db2.trackings = updateTrackRow timeTrackingId
          (stopFields nowMs (Int.fdiv (nowMs - tr.startMs) 60000))
          db.trackings := by rw [← happ]
      refine ⟨?_, ?_, ?_, ?_⟩
      · intro task2 hfind2
        rw [hT, findTask_updateTaskRow T _ (setTracked_id _) db.tasks, hft,
          Option.map_some', Option.some.injEq] at hfind2
        subst hfind2
        rw [hK, sumDurations_updateTrackRow T (stopFields_taskId _ _)
          db.trackings hinv.nodup htr, if_pos htrT, if_pos htrT]
        have := hinv.tracked_eq task hft
        rw [setTracked, htr0]
        show task.timeTracked + _ = _
        dsimp only [stopFields]
        omega
      · intro r2 hr2 hrT2
        rw [hK] at hr2
        rcases mem_updateTrackRow hr2 with ⟨r, hr, hrid, hre⟩ | hr
        · have hrtr : r = tr :=
            eq_findTracking_of_nodup db.trackings hinv.nodup htr hr hrid
          subst hrtr
          subst hre
          exact hd
        · exact hinv.nonneg r2 hr hrT2
      · intro r2 hr2 hrT2 hre2
        rw [hK] at hr2
        rcases mem_updateTrackRow hr2 with ⟨r, hr, hrid, hre⟩ | hr
        · subst hre
          simp [stopFields] at hre2
        · exact hinv.active_zero r2 hr hrT2 hre2
      · rw [hK, map_id_updateTrackRow _ _ (stopFields_id _ _)]
        exact hinv.nodup
  | add newId taskId startMs endMs duration notes =>
    obtain ⟨htid, hfresh, hendsome, hdur⟩ := hok
    subst htid
    simp only [applyOp, addManualTimeTracking] at happ
    cases hft : findTask T db.tasks with
    | none => rw [hft] at happ; exact absurd happ (by simp)
    | some task =>
      rw [hft, Option.some.injEq] at happ
      have hT : db2.tasks = updateTaskRow T
          (setTracked (task.timeTracked + duration)) db.tasks := by
        rw [← happ]
      have hK : db2.trackings =
          db.trackings ++ [⟨newId, T, startMs, endMs, duration, notes⟩] := by
        rw [← happ]
      refine ⟨?_, ?_, ?_, ?_⟩
      · intro task2 hfind2
        rw [hT, findTask_updateTaskRow T _ (setTracked_id _) db.tasks, hft,
          Option.map_some', Option.some.injEq] at hfind2
        subst hfind2
        rw [hK, sumDurations_append]
        have := hinv.tracked_eq task hft
        rw [setTracked]
        show task.timeTracked + _ = _
        rw [if_pos rfl]
        dsimp only
        omega
      · intro r hr hrT
        rw [hK] at hr
        rcases List.mem_append.mp hr with hr | hr
        · exact hinv.nonneg r hr hrT
        · have he := List.mem_singleton.mp hr
          subst he
          exact hdur
      · intro r hr hrT hre
        rw [hK] at hr
        rcases List.mem_append.mp hr with hr | hr
        · exact hinv.active_zero r hr hrT hre
        · have he := List.mem_singleton.mp hr
          subst he
          exact absurd hre hendsome
      · rw [hK, List.map_append, List.nodup_append]
        refine ⟨hinv.nodup, List.nodup_singleton _, fun s hs hs2 => ?_⟩
        simp only [List.map_cons, List.map_nil, List.mem_singleton] at hs2
        obtain ⟨r, hr, hrid⟩ := List.mem_map.mp hs
        exact (findTracking_eq_none_iff db.trackings).mp hfresh r hr
          (hrid.trans hs2)
  | edit tr =>
    obtain ⟨⟨orig, horig, horigT⟩, hendsome, hdur⟩ := hok
    simp only [applyOp, updateTimeTracking, horig] at happ
    have hnonneg2 : ∀ r2 ∈ updateTrackRow tr.id (editFields tr) db.trackings,
        r2.taskId = T → 0 ≤ r2.duration := by
      intro r2 hr2 hrT2
      rcases mem_updateTrackRow hr2 with ⟨r, hr, hrid, hre⟩ | hr
      · subst hre
        exact hdur
      · exact hinv.nonneg r2 hr hrT2
    have hactive2 : ∀ r2 ∈ updateTrackRow tr.id (editFields tr) db.trackings,
        r2.taskId = T → r2.endMs = none → r2.duration = 0 := by
      intro r2 hr2 hrT2 hre2
      rcases mem_updateTrackRow hr2 with ⟨r, hr, hrid, hre⟩ | hr
      · subst hre
        exact absurd hre2 hendsome
      · exact hinv.active_zero r2 hr hrT2 hre2
    have hsum2 : sumDurations T (updateTrackRow tr.id (editFields tr)
        db.trackings) =
        sumDurations T db.trackings - orig.duration + tr.duration := by
      rw [sumDurations_updateTrackRow T (editFields_taskId tr) db.trackings
        hinv.nodup horig, if_pos horigT, if_pos horigT]
      rw [editFields]
    have hnodup2 : ((updateTrackRow tr.id (editFields tr)
        db.trackings).map TrackRow.id).Nodup := by
      rw [map_id_updateTrackRow _ _ (editFields_id tr)]
      exact hinv.nodup
    by_cases hdiff : tr.duration - orig.duration ≠ 0
    · rw [if_pos hdiff] at happ
      cases hft : findTask orig.taskId db.tasks with
      | none => rw [hft] at happ; exact absurd happ (by simp)
      | some task =>
        rw [hft, Option.some.injEq] at happ
        rw [horigT] at hft
        have hT : db2.tasks = updateTaskRow T
            (setTracked (max 0 (task.timeTracked +
              (tr.duration - orig.duration)))) db.tasks := by
          rw [← happ, horigT]
        have hK : db2.trackings =
            updateTrackRow tr.id (editFields tr) db.trackings := by
          rw [← happ]
        refine ⟨?_, hK ▸ hnonneg2, hK ▸ hactive2, hK ▸ hnodup2⟩
        intro task2 hfind2
        rw [hT, findTask_updateTaskRow T _ (setTracked_id _) db.tasks, hft,
          Option.map_some', Option.some.injEq] at hfind2
        subst hfind2
        rw [hK, hsum2, setTracked]
        show max 0 _ = _
        have heq := hinv.tracked_eq task hft
        have hpos : 0 ≤ sumDurations T db.trackings - orig.duration +
            tr.duration := hsum2 ▸ sumDurations_nonneg T _ hnonneg2
        rw [max_eq_right (by omega)]
        omega
    · rw [if_neg hdiff, Option.some.injEq] at happ
      have hT : db2.tasks = db.tasks := by rw [← happ]
      have hK : db2.trackings =
          updateTrackRow tr.id (editFields tr) db.trackings := by
        rw [← happ]
      refine ⟨?_, hK ▸ hnonneg2, hK ▸ hactive2, hK ▸ hnodup2⟩
      intro task2 hfind2
      rw [hT] at hfind2
      rw [hK, hsum2]
      have heq := hinv.tracked_eq task2 hfind2
      omega
  | delete trackingId =>
    obtain ⟨tr, htr, htrT⟩ := hok
    simp only [applyOp, deleteTimeTracking, htr] at happ
    rw [htrT] at happ
    cases hft : findTask T db.tasks with
    | none => rw [hft] at happ; exact absurd happ (by simp)
    | some task =>
      rw [hft, Option.some.injEq] at happ
      have hT : db2.tasks = updateTaskRow T
          (setTracked (max 0 (task.timeTracked - tr.duration))) db.tasks := by
        rw [← happ]
      have hK : db2.trackings = removeTrackRow trackingId db.trackings := by
        rw [← happ]
      have hnonneg2 : ∀ r2 ∈ removeTrackRow trackingId db.trackings,
          r2.taskId = T → 0 ≤ r2.duration :=
        fun r2 hr2 hrT2 => hinv.nonneg r2 (mem_removeTrackRow hr2) hrT2
      have hsum2 : sumDurations T (removeTrackRow trackingId db.trackings) =
          sumDurations T db.trackings - tr.duration := by
        rw [sumDurations_removeTrackRow T db.trackings hinv.nodup htr,
          if_pos htrT]
      refine ⟨?_, hK ▸ hnonneg2,
        hK ▸ fun r2 hr2 hrT2 hre2 =>
          hinv.active_zero r2 (mem_removeTrackRow hr2) hrT2 hre2,
        hK ▸ nodup_map_id_removeTrackRow hinv.nodup⟩
      intro task2 hfind2
      rw [hT, findTask_updateTaskRow T _ (setTracked_id _) db.tasks, hft,
        Option.map_some', Option.some.injEq] at hfind2
      subst hfind2
      rw [hK, hsum2, setTracked]
      show max 0 _ = _
      have heq := hinv.tracked_eq task hft
      have hpos : 0 ≤ sumDurations T db.trackings - tr.duration :=
        hsum2 ▸ sumDurations_nonneg T _ hnonneg2
      rw [max_eq_right (by omega)]
      omega

/-- The invariant is preserved along any legal sequence. -/
theorem trackInv_seq {T : String} :
    ∀ {db : ServiceDB} {ops : List TrackOp} {db3 : ServiceDB},
      LegalSeq T db ops db3 → TrackInv T db → TrackInv T db3 := by
  intro db ops db3 hseq
  induction hseq with
  | nil db => exact fun h => h
  | cons db db2 db3 op ops hok happ hrest ih =>
    exact fun hinv => ih (trackInv_step hinv hok happ)

/-! ## Claims C1, C2, C10 -/

/-- C1 counterexample: the claim quantifies over every start/stop sequence
with no failures, but a stop whose wall-clock instant precedes the entry's
start (clock skew, acknowledged by the spec) records a negative duration
and drives `trackedMinutes` to -1 < 0, falsifying the "greater than or
equal to 0 after every intermediate operation" conjunct: starting task
`t1`'s entry at instant 60000 and stopping it at instant 0 succeeds and
leaves `time_tracked = -1`. -/
theorem claim_C1_counterexample :
    applyOps [TrackOp.start "e1" "t1" 60000 none, TrackOp.stop "e1" "t1" 0]
        ⟨[⟨"t1", 0⟩], []⟩ =
      some ⟨[⟨"t1", -1⟩], [⟨"e1", "t1", 60000, some 0, -1, none⟩]⟩ ∧
      ¬ (0 : Int) ≤ (-1 : Int) := by
  exact ⟨rfl, by decide⟩

/-- C1 (amended): for every sequence of start/stop/add/edit/delete
operations on a single task that succeeds at every step and is
well-formed at every step — stops target an active entry of the task at an
instant not before its start, manual additions and edits carry an end
instant and a nonnegative duration — starting from a state satisfying the
aggregate invariant, the invariant holds at the end (hence, applied to
every prefix, after every intermediate operation): the task's
`trackedMinutes` equals the sum of the durations of its surviving entries
and is nonnegative. -/
theorem claim_C1_amended (T : String) (db db3 : ServiceDB)
    (ops : List TrackOp) (hinv : TrackInv T db)
    (hseq : LegalSeq T db ops db3) :
    TrackInv T db3 ∧
      ∀ task, findTask T db3.tasks = some task →
        task.timeTracked = sumDurations T db3.trackings ∧
          0 ≤ task.timeTracked := by
  have hinv3 : TrackInv T db3 := trackInv_seq hseq hinv
  refine ⟨hinv3, fun task hfind => ⟨hinv3.tracked_eq task hfind, ?_⟩⟩
  rw [hinv3.tracked_eq task hfind]
  exact sumDurations_nonneg T _ hinv3.nonneg

/-- C1 witness: task `t1` tracked from instant 0 to instant 120000 (two
minutes); after the well-formed start/stop sequence the invariant holds
and `time_tracked = 2 =` the sum of the surviving entries' durations. -/
theorem claim_C1_witness :
    TrackInv "t1" ⟨[⟨"t1", 2⟩], [⟨"e1", "t1", 0, some 120000, 2, none⟩]⟩ ∧
      ∀ task,
        findTask "t1"
            (ServiceDB.tasks ⟨[⟨"t1", 2⟩],
              [⟨"e1", "t1", 0, some 120000, 2, none⟩]⟩) = some task →
        task.timeTracked =
            sumDurations "t1"
              (ServiceDB.trackings ⟨[⟨"t1", 2⟩],
                [⟨"e1", "t1", 0, some 120000, 2, none⟩]⟩) ∧
          0 ≤ task.timeTracked := by
  have hinv0 : TrackInv "t1" ⟨[⟨"t1", 0⟩], []⟩ := by
    refine ⟨?_, ?_, ?_, ?_⟩
    · intro task h
      rw [findTask, if_pos rfl, Option.some.injEq] at h
      subst h
      rfl
    · intro r hr hrT
      exact absurd hr (List.not_mem_nil r)
    · intro r hr hrT hre
      exact absurd hr (List.not_mem_nil r)
    · simp
  exact claim_C1_amended "t1" ⟨[⟨"t1", 0⟩], []⟩
    ⟨[⟨"t1", 2⟩], [⟨"e1", "t1", 0, some 120000, 2, none⟩]⟩
    [TrackOp.start "e1" "t1" 0 none, TrackOp.stop "e1" "t1" 120000]
    hinv0
    (LegalSeq.cons _ ⟨[⟨"t1", 0⟩], [⟨"e1", "t1", 0, none, 0, none⟩]⟩ _ _ _
      ⟨rfl, rfl⟩ rfl
      (LegalSeq.cons _ ⟨[⟨"t1", 2⟩], [⟨"e1", "t1", 0, some 120000, 2, none⟩]⟩
        _ _ _
        ⟨rfl, ⟨"e1", "t1", 0, none, 0, none⟩, rfl, rfl, rfl, by decide⟩ rfl
        (LegalSeq.nil _)))

/-- C2 counterexample: the claim says the stop duration is clamped to a
minimum of 0 even when the end instant precedes the start instant.  The
code applies no clamp: stopping at instant 0 an entry of task `t1` started
at instant 30000 records duration -1 (and decreases the task's
`time_tracked` from 5 to 4). -/
theorem claim_C2_counterexample :
    stopTimeTracking "tr1" "t1" 0
        ⟨[⟨"t1", 5⟩], [⟨"tr1", "t1", 30000, none, 0, none⟩]⟩ =
      some ⟨[⟨"t1", 4⟩], [⟨"tr1", "t1", 30000, some 0, -1, none⟩]⟩ ∧
      ¬ (0 : Int) ≤ (-1 : Int) := by
  exact ⟨rfl, by decide⟩

/-- C2 (amended): on stopping an entry, the recorded duration equals the
elapsed minutes floored — `Int.fdiv (end - start) 60000` — with no
clamping (it is negative when the end instant precedes the start by a
minute or more), the owning task's `trackedMinutes` increases by exactly
that signed duration, and the duration is nonnegative whenever the end
instant is not before the start. -/
theorem claim_C2_amended (timeTrackingId taskId : String) (nowMs : Int)
    (db : ServiceDB) (tr : TrackRow) (task : TaskRow)
    (htr : findTracking timeTrackingId db.trackings = some tr)
    (htask : findTask taskId db.tasks = some task) :
    stopTimeTracking timeTrackingId taskId nowMs db =
      some ⟨updateTaskRow taskId
          (setTracked (task.timeTracked + Int.fdiv (nowMs - tr.startMs) 60000))
          db.tasks,
        updateTrackRow timeTrackingId
          (stopFields nowMs (Int.fdiv (nowMs - tr.startMs) 60000))
          db.trackings⟩ ∧
      findTask taskId (updateTaskRow taskId
          (setTracked (task.timeTracked + Int.fdiv (nowMs - tr.startMs) 60000))
          db.tasks) =
        some (setTracked
          (task.timeTracked + Int.fdiv (nowMs - tr.startMs) 60000) task) ∧
      (tr.startMs ≤ nowMs → 0 ≤ Int.fdiv (nowMs - tr.startMs) 60000) := by
  refine ⟨?_, ?_, fun h => Int.fdiv_nonneg (by omega) (by omega)⟩
  · simp only [stopTimeTracking, htr, htask]
  · rw [findTask_updateTaskRow taskId _ (setTracked_id _) db.tasks, htask,
      Option.map_some']

/-- C2 witness: the spec's scenario — start at 10:00, stop at 10:47
(2820000 ms later) — records duration 47 and raises the task's
`time_tracked` from 0 to 47. -/
theorem claim_C2_witness :
    stopTimeTracking "tr1" "t1" 2820000
        ⟨[⟨"t1", 0⟩], [⟨"tr1", "t1", 0, none, 0, none⟩]⟩ =
      some ⟨[⟨"t1", 47⟩], [⟨"tr1", "t1", 0, some 2820000, 47, none⟩]⟩ := by
  have h := claim_C2_amended "tr1" "t1" 2820000
    ⟨[⟨"t1", 0⟩], [⟨"tr1", "t1", 0, none, 0, none⟩]⟩
    ⟨"tr1", "t1", 0, none, 0, none⟩ ⟨"t1", 0⟩ rfl rfl
  rw [h.1]
  rfl

/-- C10: when an edit's new duration equals the stored duration, the
duration difference is 0, the task-update branch is skipped, the owning
task row (its `time_tracked` included) is not written, and only the
entry's start/end/duration/notes columns are rewritten. -/
theorem claim_C10 (tr orig : TrackRow) (db : ServiceDB)
    (horig : findTracking tr.id db.trackings = some orig)
    (hdur : tr.duration = orig.duration) :
    updateTimeTracking tr db =
      some ⟨db.tasks, updateTrackRow tr.id (editFields tr) db.trackings⟩ ∧
      ∀ db2, updateTimeTracking tr db = some db2 → db2.tasks = db.tasks := by
  have h1 : updateTimeTracking tr db =
      some ⟨db.tasks, updateTrackRow tr.id (editFields tr) db.trackings⟩ := by
    simp only [updateTimeTracking, horig]
    rw [if_neg (by omega)]
  refine ⟨h1, fun db2 h2 => ?_⟩
  rw [h1, Option.some.injEq] at h2
  rw [← h2]

/-- C10 witness: an edit moving an entry's start/end/notes but keeping its
duration (30) leaves the task row untouched. -/
theorem claim_C10_witness :
    updateTimeTracking ⟨"tr1", "t1", 100, some 200, 30, some "n"⟩
        ⟨[⟨"t1", 30⟩], [⟨"tr1", "t1", 0, some 50, 30, none⟩]⟩ =
      some ⟨[⟨"t1", 30⟩], [⟨"tr1", "t1", 100, some 200, 30, some "n"⟩]⟩ := by
  have h := claim_C10 ⟨"tr1", "t1", 100, some 200, 30, some "n"⟩
    ⟨"tr1", "t1", 0, some 50, 30, none⟩
    ⟨[⟨"t1", 30⟩], [⟨"tr1", "t1", 0, some 50, 30, none⟩]⟩ rfl rfl
  rw [h.1]
  rfl

/-! ## ReconciliationQueue, from `src/context/providers/SupabaseTaskProvider.tsx`

`processPendingOperations` runs when connectivity is observed true with a
non-empty queue: it copies the queue, installs a fresh empty queue, then
walks the copy in order.  The `switch` dispatches a service call only for
`add`+`task`, `add`+`project`, `update`+`task` and `delete`+`task`; the
remaining combinations fall through the `// ... handle other entities`
comments with no call and no error.  A record whose service call throws is
appended to the now-current queue via the functional
`setPendingOperations(prev => [...prev, operation])` update. -/

/-- The `type` field of a pending record. -/
inductive PendingType where
  | add
  | update
  | delete
deriving DecidableEq, Repr

/-- The `entity` field of a pending record. -/
inductive PendingEntity where
  | task
  | project
  | timeTracking
  | timeBlock
deriving DecidableEq, Repr

/-- A queued mutation record; `data` stands for the opaque payload. -/
structure PendingRecord where
  type : PendingType
  entity : PendingEntity
  data : String
deriving DecidableEq, Repr

/-- Whether the drain `switch` dispatches a service call for a record:
`add` of tasks and projects, `update` and `delete` of tasks only — the
other arms are unimplemented (`// ... handle other entities`). -/
def isDispatched (op : PendingRecord) : Bool :=
  match op.type, op.entity with
  | .add, .task => true
  | .add, .project => true
  | .update, .task => true
  | .delete, .task => true
  | _, _ => false

/-- The drain loop: walk the drained copy in order, accumulating the trace
of service calls made (`calls`) and the now-current queue (`queue`,
freshly installed as `[]`); a dispatched record whose call fails
(`remote op = false`, the thrown error) is appended to the current
queue. -/
def drainLoop (remote : PendingRecord → Bool) :
    List PendingRecord → List PendingRecord → List PendingRecord →
      List PendingRecord × List PendingRecord
  | [], calls, queue => (calls, queue)
  | op :: rest, calls, queue =>
    if isDispatched op then
      if remote op then drainLoop remote rest (calls ++ [op]) queue
      else drainLoop remote rest (calls ++ [op]) (queue ++ [op])
    else drainLoop remote rest calls queue

/-- `processPendingOperations`: drain the queue against the remote store
(`remote` tells whether each service call succeeds), returning the ordered
trace of service calls and the queue left installed afterwards. -/
def processPendingOperations (remote : PendingRecord → Bool)
    (pending : List PendingRecord) :
    List PendingRecord × List PendingRecord :=
  drainLoop remote pending [] []

theorem drainLoop_spec (remote : PendingRecord → Bool) :
    ∀ (ops calls queue : List PendingRecord),
      drainLoop remote ops calls queue =
        (calls ++ ops.filter isDispatched,
          queue ++ ops.filter (fun op => isDispatched op && !remote op))
  | [], calls, queue => by simp [drainLoop]
  | op :: rest, calls, queue => by
    rw [drainLoop]
    by_cases hd : isDispatched op
    · rw [if_pos hd]
      by_cases hr : remote op
      · rw [if_pos hr, drainLoop_spec remote rest]
        simp [List.filter_cons, hd, hr]
      · rw [if_neg hr, drainLoop_spec remote rest]
        simp [List.filter_cons, hd, Bool.eq_false_iff.mpr hr]
    · rw [if_neg hd]
      rw [drainLoop_spec remote rest]
      simp [List.filter_cons, Bool.eq_false_iff.mpr hd]

/-! ## Claim C6 -/

/-- C6 counterexample: the claim says every queued record is replayed
against the remote store.  A queued `update`+`project` record falls
through the unimplemented switch arms: draining the one-record queue
makes no service call at all (even with a remote that would fail every
call) and still leaves the queue empty. -/
theorem claim_C6_counterexample :
    processPendingOperations (fun _ => false)
        [⟨PendingType.update, PendingEntity.project, "p1"⟩] = ([], []) ∧
      ([] : List PendingRecord) ≠
        [⟨PendingType.update, PendingEntity.project, "p1"⟩] := by
  exact ⟨rfl, by decide⟩

/-- C6 (amended): on the offline-to-online transition with a non-empty
queue, a fresh empty queue is installed and the drained copy is walked in
original order; every record the switch dispatches (task/project adds,
task updates, task deletes) is called against the remote store exactly
once, in order; records of the other kinds are dropped without a call;
each dispatched record whose call fails is appended to the now-current
queue in order; when the queue is fully dispatched the call trace is the
whole queue, and when no call fails the final queue is empty. -/
theorem claim_C6_amended (remote : PendingRecord → Bool)
    (pending : List PendingRecord) (hne : pending ≠ []) :
    (processPendingOperations remote pending).1 =
        pending.filter isDispatched ∧
      (processPendingOperations remote pending).2 =
        pending.filter (fun op => isDispatched op && !remote op) ∧
      ((∀ op ∈ pending, isDispatched op = true) →
        (processPendingOperations remote pending).1 = pending) ∧
      ((∀ op ∈ pending, remote op = true) →
        (processPendingOperations remote pending).2 = []) := by
  have h := drainLoop_spec remote pending [] []
  rw [processPendingOperations, h]
  refine ⟨by simp, by simp, fun hall => ?_, fun hall => ?_⟩
  · simp only [List.nil_append]
    exact List.filter_eq_self.mpr hall
  · simp only [List.nil_append]
    refine List.filter_eq_nil_iff.mpr fun op hop => ?_
    simp [hall op hop]

/-- C6 witness: the spec's scenario — one queued add-task mutation, remote
reachable again — is dispatched exactly once and the queue is empty
afterwards. -/
theorem claim_C6_witness :
    ([⟨PendingType.add, PendingEntity.task, "t1"⟩] :
        List PendingRecord) ≠ [] ∧
      (processPendingOperations (fun _ => true)
          [⟨PendingType.add, PendingEntity.task, "t1"⟩]).1 =
        [⟨PendingType.add, PendingEntity.task, "t1"⟩] ∧
      (processPendingOperations (fun _ => true)
          [⟨PendingType.add, PendingEntity.task, "t1"⟩]).2 = [] := by
  have h := claim_C6_amended (fun _ => true)
    [⟨PendingType.add, PendingEntity.task, "t1"⟩] (by decide)
  exact ⟨by decide, h.2.2.1 (by decide), h.2.2.2 (by decide)⟩

/-! ## Provider time-tracking state machine, from
`src/context/providers/SupabaseTaskProvider.tsx`

The provider holds `activeTimeTracking` (at most one value) and
`timeTrackings` (the completed list).  `stopTimeTrackingDb` writes the end
instant and floored duration to the store, clears the active slot, and the
reload moves the stopped entry into the list; `startTimeTrackingDb` first
awaits `stopTimeTrackingDb` when an active entry exists, then inserts the
new entry with no end and installs it as active; `addTimeTrackingDb`
appends whatever entry the caller supplies (its end instant may be
absent); `updateTimeTrackingDb` replaces the matching entry wholesale;
`deleteTimeTrackingDb` filters it out. -/

/-- The provider's time-tracking state. -/
structure ProviderState where
  active : Option TrackRow
  trackings : List TrackRow
deriving DecidableEq, Repr

/-- `stopTimeTrackingDb`: no-op without an active entry; otherwise stamp
the end instant and floored duration, clear the active slot, and (through
the reload) move the stopped entry into the completed list. -/
def stopTimeTrackingDb (nowMs : Int) (s : ProviderState) : ProviderState :=
  match s.active with
  | none => s
  | some e =>
    ⟨none, s.trackings ++ [stopFields nowMs (Int.fdiv (nowMs - e.startMs) 60000) e]⟩

/-- `startTimeTrackingDb`: stop the active entry first when there is one,
then insert the new entry (no end instant, duration 0) and install it as
the active entry. -/
def startTimeTrackingDb (newId taskId : String) (nowMs : Int)
    (notes : Option String) (s : ProviderState) : ProviderState :=
  let s1 := match s.active with
    | some _ => stopTimeTrackingDb nowMs s
    | none => s
  ⟨some ⟨newId, taskId, nowMs, none, 0, notes⟩, s1.trackings⟩

/-- `addTimeTrackingDb`: append the caller-supplied entry to the completed
list (the caller may supply no end instant). -/
def addTimeTrackingDb (newId taskId : String) (startMs : Int)
    (endMs : Option Int) (duration : Int) (notes : Option String)
    (s : ProviderState) : ProviderState :=
  ⟨s.active, s.trackings ++ [⟨newId, taskId, startMs, endMs, duration, notes⟩]⟩

/-- `updateTimeTrackingDb`: replace the matching entry wholesale. -/
def updateTimeTrackingDb (tr : TrackRow) (s : ProviderState) : ProviderState :=
  ⟨s.active, s.trackings.map fun t => if t.id = tr.id then tr else t⟩

/-- `deleteTimeTrackingDb`: drop the matching entry. -/
def deleteTimeTrackingDb (id : String) (s : ProviderState) : ProviderState :=
  ⟨s.active, removeTrackRow id s.trackings⟩

/-- One provider-level time-tracking operation. -/
inductive ProviderOp where
  | start (newId taskId : String) (nowMs : Int) (notes : Option String)
  | stop (nowMs : Int)
  | add (newId taskId : String) (startMs : Int) (endMs : Option Int)
      (duration : Int) (notes : Option String)
  | update (tr : TrackRow)
  | delete (id : String)

/-- Apply one provider operation. -/
def applyProviderOp : ProviderOp → ProviderState → ProviderState
  | .start newId taskId nowMs notes, s =>
    startTimeTrackingDb newId taskId nowMs notes s
  | .stop nowMs, s => stopTimeTrackingDb nowMs s
  | .add newId taskId startMs endMs duration notes, s =>
    addTimeTrackingDb newId taskId startMs endMs duration notes s
  | .update tr, s => updateTimeTrackingDb tr s
  | .delete id, s => deleteTimeTrackingDb id s

/-- States reachable from the initial state (no active entry, empty
list). -/
inductive Reachable : ProviderState → Prop
  | init : Reachable ⟨none, []⟩
  | step (op : ProviderOp) (s : ProviderState) :
      Reachable s → Reachable (applyProviderOp op s)

/-- The system-wide active entries: the active slot plus every completed
entry with no end instant. -/
def activeEntries (s : ProviderState) : List TrackRow :=
  (match s.active with
    | some e => [e]
    | none => []) ++ s.trackings.filter fun t => decide (t.endMs = none)

/-- An operation that never materializes an end-less entry in the
completed list: manual additions and edits carry an end instant. -/
def GoodOp : ProviderOp → Prop
  | .add _ _ _ endMs _ _ => endMs ≠ none
  | .update tr => tr.endMs ≠ none
  | _ => True

/-- States reachable using only operations whose manual additions and
edits carry an end instant. -/
inductive ReachableG : ProviderState → Prop
  | init : ReachableG ⟨none, []⟩
  | step (op : ProviderOp) (s : ProviderState) :
      GoodOp op → ReachableG s → ReachableG (applyProviderOp op s)

/-- Along good operations, every completed entry has an end instant. -/
theorem trackings_all_ended {s : ProviderState} (h : ReachableG s) :
    ∀ t ∈ s.trackings, t.endMs ≠ none := by
  induction h with
  | init => intro t ht; exact absurd ht (List.not_mem_nil t)
  | step op s hop hs ih =>
    cases op with
    | start newId taskId nowMs notes =>
      intro t ht
      simp only [applyProviderOp, startTimeTrackingDb] at ht
      cases ha : s.active with
      | none =>
        rw [ha] at ht
        exact ih t ht
      | some e =>
        rw [ha] at ht
        simp only [stopTimeTrackingDb, ha] at ht
        rcases List.mem_append.mp ht with ht | ht
        · exact ih t ht
        · have he := List.mem_singleton.mp ht
          subst he
          simp [stopFields]
    | stop nowMs =>
      intro t ht
      simp only [applyProviderOp, stopTimeTrackingDb] at ht
      cases ha : s.active with
      | none =>
        rw [ha] at ht
        exact ih t ht
      | some e =>
        rw [ha] at ht
        simp only at ht
        rcases List.mem_append.mp ht with ht | ht
        · exact ih t ht
        · have he := List.mem_singleton.mp ht
          subst he
          simp [stopFields]
    | add newId taskId startMs endMs duration notes =>
      intro t ht
      simp only [applyProviderOp, addTimeTrackingDb] at ht
      rcases List.mem_append.mp ht with ht | ht
      · exact ih t ht
      · have he := List.mem_singleton.mp ht
        subst he
        exact hop
    | update tr =>
      intro t ht
      simp only [applyProviderOp, updateTimeTrackingDb] at ht
      obtain ⟨t2, ht2, he⟩ := List.mem_map.mp ht
      by_cases hid : t2.id = tr.id
      · rw [if_pos hid] at he
        exact he ▸ hop
      · rw [if_neg hid] at he
        exact he ▸ ih t2 ht2
    | delete id =>
      intro t ht
      simp only [applyProviderOp, deleteTimeTrackingDb] at ht
      exact ih t (mem_removeTrackRow ht)

/-! ## Claim C7 -/

/-- C7 counterexample: the claim says at most one entry with an absent end
instant exists at every reachable state.  Starting tracking and then
manually adding an entry with no end instant reaches a state with two such
entries. -/
theorem claim_C7_counterexample :
    Reachable ⟨some ⟨"e1", "t1", 0, none, 0, none⟩,
        [⟨"e2", "t1", 5, none, 7, none⟩]⟩ ∧
      ¬ (activeEntries ⟨some ⟨"e1", "t1", 0, none, 0, none⟩,
          [⟨"e2", "t1", 5, none, 7, none⟩]⟩).length ≤ 1 := by
  refine ⟨?_, by decide⟩
  exact Reachable.step (ProviderOp.add "e2" "t1" 5 none 7 none) _
    (Reachable.step (ProviderOp.start "e1" "t1" 0 none) _ Reachable.init)

/-- C7 (amended): provided every manual addition and edit supplies an end
instant, every reachable state has at most one active entry system-wide;
and starting while an entry is active equals stopping it first and then
starting on the stopped state (stop-then-start, sequentially). -/
theorem claim_C7_amended :
    (∀ s : ProviderState, ReachableG s → (activeEntries s).length ≤ 1) ∧
      (∀ (s : ProviderState) (newId taskId : String) (nowMs : Int)
          (notes : Option String), s.active ≠ none →
        startTimeTrackingDb newId taskId nowMs notes s =
          startTimeTrackingDb newId taskId nowMs notes
            (stopTimeTrackingDb nowMs s)) := by
  constructor
  · intro s hs
    have hall := trackings_all_ended hs
    have hfilter : (s.trackings.filter fun t => decide (t.endMs = none)) = [] :=
      List.filter_eq_nil_iff.mpr fun t ht => by simp [hall t ht]
    rw [activeEntries, hfilter, List.append_nil]
    cases s.active with
    | none => simp
    | some e => simp
  · intro s newId taskId nowMs notes ha
    cases hs : s.active with
    | none => exact absurd hs ha
    | some e =>
      rw [startTimeTrackingDb, startTimeTrackingDb]
      simp only [hs, stopTimeTrackingDb]

/-- C7 witness: after a good sequence (start, manual add with an end
instant, start again) the reached state has exactly one active entry; and
the stop-then-start decomposition at a concrete active state. -/
theorem claim_C7_witness :
    (activeEntries (applyProviderOp (ProviderOp.start "e3" "t2" 9 none)
        (applyProviderOp (ProviderOp.add "e2" "t1" 5 (some 6) 7 none)
          (applyProviderOp (ProviderOp.start "e1" "t1" 0 none)
            ⟨none, []⟩)))).length ≤ 1 ∧
      startTimeTrackingDb "e9" "t9" 60000 none
          ⟨some ⟨"e1", "t1", 0, none, 0, none⟩, []⟩ =
        startTimeTrackingDb "e9" "t9" 60000 none
          (stopTimeTrackingDb 60000
            ⟨some ⟨"e1", "t1", 0, none, 0, none⟩, []⟩) := by
  constructor
  · exact claim_C7_amended.1 _
      (ReachableG.step (ProviderOp.start "e3" "t2" 9 none) _ trivial
        (ReachableG.step (ProviderOp.add "e2" "t1" 5 (some 6) 7 none) _
          (by simp [GoodOp])
          (ReachableG.step (ProviderOp.start "e1" "t1" 0 none) _ trivial
            ReachableG.init)))
  · exact claim_C7_amended.2 ⟨some ⟨"e1", "t1", 0, none, 0, none⟩, []⟩
      "e9" "t9" 60000 none (by simp)

end TaskCompass
